import Mathlib

/-!
Verification development for the ESG project pipeline
(filtering, composite scoring, budget-constrained portfolio optimization).

The Python sources are shallowly embedded here over exact rational
arithmetic (`ℚ` stands for the float values flowing through the pipeline;
inputs are modelled NaN-free, so `np.nan_to_num` and `fillna` are the
identity on the modelled values).  DataFrames are modelled as a column-name
list plus rows; a row is an association list from column names to values,
where lookup returns the first binding (so prepending a binding models
pandas column assignment/overwrite).

Sorting notes, traced from the libraries the source calls into:
* `DataFrame.sort_values(by=c, ascending=False)` (pandas `nargsort`)
  computes an **ascending** argsort and then reverses the whole index
  array.  numpy's default `quicksort` runs plain insertion sort on arrays
  shorter than its small-array cutoff (16), where it is stable; above the
  cutoff only "permutation of the index range, ascending in value"
  (`IsAscArgsort` below) is guaranteed and tie order is unspecified.
  Theorems that must hold at every frame size quantify over an arbitrary
  `IsAscArgsort` permutation; the concrete insertion-sort model
  `argsortAsc` is used as one instance, and statements about tie ORDER
  are made only for inputs inside the exact small-array regime (or for
  `nlargest`, which is stable outright).  All concrete instances used
  below are far below the cutoff, where the model is exact.
* `np.argsort(...)[::-1]` in `_greedy_selection` is the same construction.
* `Series.nlargest` (pandas `SelectNFrame`, default `keep='first'`) is a
  genuinely stable descending selection: it stable-sorts descending and
  takes the first n rows; no reversal is involved.
-/

namespace GreenImpact

/-- Column name used for the composite score. -/
def compositeCol : String := "Composite_Score"

/-- Default cost column of the optimizer. -/
def costColDefault : String := "Total_Investment_USD"

/-- Column added by the optimizer for the LP relaxation value. -/
def weightCol : String := "Selection_Weight"

/-- Column added by `_greedy_fallback`. -/
def effCol : String := "Efficiency"

/-- Default attribute used by the scorer's fallback path. -/
def overallCol : String := "Overall_ESG_Score"

/-- Risk attribute consulted by the `risk_limit` constraint. -/
def riskLevelCol : String := "Financial_Risk_Level"

/-- Label marking an unfavorable record on the risk attribute. -/
def highLabel : String := "High"

/-- Dot product of two rational lists (truncating to the shorter one). -/
def dotL (a b : List ℚ) : ℚ := (List.zipWith (fun x y => x * y) a b).sum

/-- Sum of the entries of `vals` whose mask bit is set. -/
def maskedSum (vals : List ℚ) (mask : List Bool) : ℚ :=
  (List.zipWith (fun v b => if b then v else 0) vals mask).sum

/-- Sum of the positive parts of a list; the best aggregate score any
subset of records can attain when all records are affordable. -/
def posSum (vals : List ℚ) : ℚ := (vals.map (fun v => max v 0)).sum

/-- Value/index pairs of a list, the input to an argsort. -/
def enumL (l : List ℚ) : List (ℕ × ℚ) := (List.range l.length).map (fun i => (i, l.getD i 0))

/-- Comparison used by the stable ascending argsort: by value, ties by
original index. -/
def argRel : (ℕ × ℚ) → (ℕ × ℚ) → Prop := fun a b => a.2 < b.2 ∨ (a.2 = b.2 ∧ a.1 ≤ b.1)

instance : DecidableRel argRel := fun a b => by unfold argRel; exact inferInstance

instance : IsTotal (ℕ × ℚ) argRel := by
  constructor
  intro a b
  unfold argRel
  rcases lt_trichotomy a.2 b.2 with h | h | h
  · exact Or.inl (Or.inl h)
  · rcases Nat.le_total a.1 b.1 with h1 | h1
    · exact Or.inl (Or.inr ⟨h, h1⟩)
    · exact Or.inr (Or.inr ⟨h.symm, h1⟩)
  · exact Or.inr (Or.inl h)

instance : IsTrans (ℕ × ℚ) argRel := by
  constructor
  intro a b c hab hbc
  unfold argRel at *
  rcases hab with h1 | ⟨h1, h1'⟩
  · rcases hbc with h2 | ⟨h2, _⟩
    · exact Or.inl (h1.trans h2)
    · exact Or.inl (h2 ▸ h1)
  · rcases hbc with h2 | ⟨h2, h2'⟩
    · exact Or.inl (h1 ▸ h2)
    · exact Or.inr ⟨h1.trans h2, h1'.trans h2'⟩

/-- Ascending argsort of a rational list, modelled as the stable insertion
sort on (index, value) pairs ordered by value then index.  This is exactly
numpy's `argsort(kind='quicksort')` on arrays below the introsort
small-array cutoff (insertion sort, stable); above the cutoff numpy
guarantees only `IsAscArgsort` (a permutation, ascending in value) and the
relative order of tied entries is unspecified.  Theorems whose conclusions
must hold at every frame size therefore quantify over any `IsAscArgsort`
permutation and use this definition only as one concrete instance; tie
ORDER is asserted only on inputs inside the exact small-array regime. -/
def argsortAsc (vals : List ℚ) : List ℕ :=
  ((enumL vals).insertionSort argRel).map (fun p => p.1)

/-- Descending argsort as numpy/pandas produce it for a descending sort:
the ascending argsort reversed wholesale (`[::-1]` resp. pandas
`nargsort`'s `indexer[::-1]`), which also reverses the relative order of
tied entries. -/
def argsortDesc (vals : List ℚ) : List ℕ := (argsortAsc vals).reverse

/-- Everything numpy's argsort guarantees at every array size and sort
kind: the result is a permutation of the index range, ascending in the
array's values along it. -/
def IsAscArgsort (vals : List ℚ) (perm : List ℕ) : Prop :=
  perm.Perm (List.range vals.length) ∧
  perm.Pairwise (fun i j => vals.getD i 0 ≤ vals.getD j 0)

/-- Efficiency array of `_greedy_selection`:
`np.divide(scores, costs, out=np.zeros_like(scores), where=costs!=0)`,
i.e. score/cost with 0 at zero cost. -/
def greedySelEff (costs scores : List ℚ) : List ℚ :=
  List.zipWith (fun s c => if c = 0 then 0 else s / c) scores costs

/-- Efficiency as the specification words it: score divided by cost, and 0
when the cost is 0.  Used to compare the two greedy routines against the
spec sentence. -/
def specEfficiency (s c : ℚ) : ℚ := if c = 0 then 0 else s / c

/-- Greedy admission loop of `_greedy_selection`: walk the index order,
admit an index when its cost fits the remaining budget, and decrement the
remaining budget on admission. -/
def greedyRun (costs : List ℚ) : List ℕ → ℚ → List ℕ
  | [], _ => []
  | i :: rest, b =>
    if costs.getD i 0 ≤ b then i :: greedyRun costs rest (b - costs.getD i 0)
    else greedyRun costs rest b

/-- Remaining budget after the greedy loop has walked a given index order,
mirroring `greedyRun`. -/
def remAfter (costs : List ℚ) : List ℕ → ℚ → ℚ
  | [], b => b
  | i :: rest, b =>
    if costs.getD i 0 ≤ b then remAfter costs rest (b - costs.getD i 0)
    else remAfter costs rest b

/-- Boolean selection mask produced by `_greedy_selection(costs, scores, budget)`. -/
def greedySelection (costs scores : List ℚ) (budget : ℚ) : List Bool :=
  let chosen := greedyRun costs (argsortDesc (greedySelEff costs scores)) budget
  (List.range costs.length).map (fun i => decide (i ∈ chosen))

/-- Row of the optimizer's numeric view of a DataFrame: an association
list from column names to rational values. -/
abbrev NumRow : Type := List (String × ℚ)

/-- Value of a row at a column: first binding wins (missing columns are
never read by the modelled code paths, the default 0 is arbitrary). -/
def rowGetN : NumRow → String → ℚ
  | [], _ => 0
  | p :: r, c => if p.1 = c then p.2 else rowGetN r c

/-- Prepend a column binding to a row; models pandas column assignment. -/
def addNum (r : NumRow) (c : String) (v : ℚ) : NumRow := (c, v) :: r

/-- DataFrame for the optimizer: column names plus rows of numeric values. -/
structure NumFrame where
  cols : List String
  rows : List NumRow
deriving DecidableEq

/-- Column of a frame as a list of values, one per row in row order. -/
def NumFrame.getCol (df : NumFrame) (c : String) : List ℚ := df.rows.map (fun r => rowGetN r c)

/-- Efficiency of `_greedy_fallback`:
`df[score_column] / df[cost_column].replace(0, 1)` — note a zero cost is
replaced by 1, so a zero-cost record gets efficiency equal to its score. -/
def fallbackEff (s c : ℚ) : ℚ := s / (if c = 0 then 1 else c)

/-- Comparison used when `_greedy_fallback` sorts rows ascending by
efficiency (pandas then reverses the argsort for `ascending=False`). -/
def effRel : NumRow → NumRow → Prop := fun a b => rowGetN a effCol ≤ rowGetN b effCol

instance : DecidableRel effRel := fun a b => by unfold effRel; exact inferInstance

instance : IsTotal NumRow effRel := by
  constructor; intro a b; unfold effRel; exact le_total _ _

instance : IsTrans NumRow effRel := by
  constructor; intro a b c hab hbc; exact le_trans hab hbc

/-- Greedy admission loop of `_greedy_fallback` over whole rows. -/
def greedyAdmit (cc : String) : List NumRow → ℚ → List NumRow
  | [], _ => []
  | r :: rest, b =>
    if rowGetN r cc ≤ b then r :: greedyAdmit cc rest (b - rowGetN r cc)
    else greedyAdmit cc rest b

/-- Model of `ProjectOptimizer._greedy_fallback`: add an `Efficiency`
column, sort rows descending by it (pandas: reversed stable ascending
argsort), admit greedily within the budget, and return the admitted rows
with `Selection_Weight = 1.0` — or an empty frame if nothing was admitted. -/
def greedy_fallback (df : NumFrame) (budget : ℚ) (sc cc : String) : NumFrame :=
  let work := df.rows.map (fun r => addNum r effCol (fallbackEff (rowGetN r sc) (rowGetN r cc)))
  let sorted := (work.insertionSort effRel).reverse
  let chosen := greedyAdmit cc sorted budget
  if chosen.isEmpty then ⟨[], []⟩
  else ⟨df.cols ++ [effCol, weightCol], chosen.map (fun r => addNum r weightCol 1)⟩

/-- Threshold step of the LP path: record i is selected iff its relaxation
value exceeds 0.5. -/
def thresholdMask (x : List ℚ) : List Bool := x.map (fun xi => decide ((1 : ℚ)/2 < xi))

/-- Row selection of the LP path: keep the rows whose mask bit is set and
annotate each with its continuous LP value as `Selection_Weight`. -/
def selectRows (df : NumFrame) (x : List ℚ) (mask : List Bool) : NumFrame :=
  ⟨df.cols ++ [weightCol],
    ((df.rows.zip (x.zip mask)).filter (fun p => p.2.2)).map
      (fun p => addNum p.1 weightCol p.2.1)⟩

/-- Last-run diagnostics stored in `self.optimization_results`. -/
structure Diagnostics where
  total_cost : ℚ
  total_score : ℚ
  budget_utilization : ℚ
  num_projects : ℕ
deriving DecidableEq

/-- Outcome of the `scipy.optimize.linprog` call, which the embedding
takes as a parameter: the solver returned a vector `x` with a success
flag, or it raised. -/
inductive LinprogOutcome
  | res (x : List ℚ) (success : Bool)
  | raise (msg : String)

/-- Feasibility of a vector for the LP relaxation the optimizer builds:
componentwise in [0,1] and total cost within budget. -/
def lpFeasible (costs : List ℚ) (budget : ℚ) (x : List ℚ) : Prop :=
  x.length = costs.length ∧ (∀ xi ∈ x, 0 ≤ xi ∧ xi ≤ 1) ∧ dotL costs x ≤ budget

/-- Optimality for the `maximize_score` objective: feasible, and of
maximal score among feasible vectors.  A successful HiGHS solve returns
such a vector. -/
def lpOptimal (costs scores : List ℚ) (budget : ℚ) (x : List ℚ) : Prop :=
  lpFeasible costs budget x ∧ ∀ y, lpFeasible costs budget y → dotL scores y ≤ dotL scores x

/-- Model of `ProjectOptimizer.optimize_projects`, parameterized by the
solver outcome and threading the `optimization_results` state.  An
`Except.error` would model an exception escaping to the caller; every
branch of the source returns normally, so every branch here is `.ok`. -/
def optimize_projects (lin : LinprogOutcome) (st : Option Diagnostics) (df : NumFrame)
    (budget : ℚ) (sc cc : String) : Except String (NumFrame × Option Diagnostics) :=
  if df.rows.isEmpty then .ok (⟨[], []⟩, st)
  else if sc ∈ df.cols ∧ cc ∈ df.cols then
    let costs := df.getCol cc
    let scores := df.getCol sc
    match lin with
    | .raise _ => .ok (greedy_fallback df budget sc cc, st)
    | .res x success =>
      if success then
        let mask0 := thresholdMask x
        let mask := if mask0.any id then mask0 else greedySelection costs scores budget
        let sel := selectRows df x mask
        let d : Diagnostics :=
          ⟨(sel.getCol cc).sum, (sel.getCol sc).sum, (sel.getCol cc).sum / budget,
            sel.rows.length⟩
        .ok (sel, some d)
      else .ok (greedy_fallback df budget sc cc, st)
  else .ok (df, st)

/-- The frame/state pair a call leaves behind (all branches are `.ok`). -/
def optRun (lin : LinprogOutcome) (st : Option Diagnostics) (df : NumFrame)
    (budget : ℚ) (sc cc : String) : NumFrame × Option Diagnostics :=
  match optimize_projects lin st df budget sc cc with
  | .ok p => p
  | .error _ => (⟨[], []⟩, none)

/-- Model of the `risk_limit` branch of `ProjectOptimizer._apply_constraint`:
if the unfavorable-risk records exceed the cap, keep all favorable records
plus the `maxHigh` unfavorable ones of largest composite score
(`nlargest`, stable descending, first occurrences kept on ties). -/
def apply_constraint_risk (maxHigh : ℕ) (riskOf : α → String) (scoreOf : α → ℚ)
    (rows : List α) : List α :=
  let high := rows.filter (fun r => riskOf r = highLabel)
  let low := rows.filter (fun r => ¬ riskOf r = highLabel)
  if maxHigh < high.length then
    low ++ (high.insertionSort (fun a b => scoreOf b ≤ scoreOf a)).take maxHigh
  else rows

/-- Cell value of the mixed-type catalog frames: numeric (int/float,
modelled as ℚ) or a string. -/
inductive Value
  | num (q : ℚ)
  | str (s : String)
deriving DecidableEq

/-- Row of a mixed-type frame: association list, first binding wins. -/
abbrev VRow : Type := List (String × Value)

/-- Cell lookup in a row (default never reached on modelled paths). -/
def rowGet : VRow → String → Value
  | [], _ => Value.num 0
  | p :: r, c => if p.1 = c then p.2 else rowGet r c

/-- Mixed-type DataFrame: columns plus rows. -/
structure VFrame where
  cols : List String
  rows : List VRow
deriving DecidableEq

/-- Column of a mixed-type frame in row order. -/
def VFrame.getVCol (df : VFrame) (c : String) : List Value :=
  df.rows.map (fun r => rowGet r c)

/-- Assign a column: prepend the binding to each row (pandas overwrite)
and record the column name. -/
def addVCol (df : VFrame) (c : String) (vals : List Value) : VFrame :=
  ⟨df.cols ++ [c], df.rows.zipWith (fun r v => (c, v) :: r) vals⟩

/-- Numeric reading of a cell, `none` on a string. -/
def toNum? : Value → Option ℚ
  | .num q => some q
  | .str _ => none

/-- Digit-string value, `none` unless nonempty and all digits. -/
def digitsVal (cs : List Char) : Option ℕ :=
  if cs ≠ [] ∧ cs.all Char.isDigit then
    some (cs.foldl (fun n c => 10 * n + (c.toNat - 48)) 0)
  else none

/-- Unsigned part of the modelled Python `float()` parser. -/
def pyFloatMag (cs : List Char) : Option ℚ :=
  match cs.splitOn '.' with
  | [a] => (digitsVal a).map (fun n => (n : ℚ))
  | [a, b] =>
    match digitsVal a, digitsVal b with
    | some n, some m => some ((n : ℚ) + (m : ℚ) / (10 : ℚ) ^ b.length)
    | _, _ => none
  | _ => none

/-- Python `float()` on the characters after a comparison operator,
restricted to plain signed decimal literals (the forms the repository's
filter strings use); `none` models the `ValueError` the surrounding
`try`/`except` absorbs. -/
def pyFloatL : List Char → Option ℚ
  | '-' :: rest => (pyFloatMag rest).map (fun q => -q)
  | '+' :: rest => pyFloatMag rest
  | cs => pyFloatMag cs

/-- Operator spelling at the head of a string filter value, tested in the
source's order (`>=`, `<=`, `>`, `<`, `==`, else a plain string match). -/
inductive OpParse
  | opGe (rest : List Char)
  | opLe (rest : List Char)
  | opGt (rest : List Char)
  | opLt (rest : List Char)
  | opEqEq (rest : List Char)
  | plain

/-- Parse the operator spelling off a filter string. -/
def parseOp : List Char → OpParse
  | '>' :: '=' :: r => .opGe r
  | '<' :: '=' :: r => .opLe r
  | '>' :: r => .opGt r
  | '<' :: r => .opLt r
  | '=' :: '=' :: r => .opEqEq r
  | _ => .plain

/-- Filter value as the dynamic types the source dispatches on: a string
(possibly operator-prefixed), a list (membership), a number, or a bool
(Python bools are ints, `True == 1`, so the numeric equality branch of
the source handles them; the model does the same). -/
inductive FilterVal
  | fstr (s : String)
  | flist (vs : List Value)
  | fnum (q : ℚ)
  | fbool (b : Bool)

/-- Equality filter (pandas `==` comparison, which never raises; cells of
a different type simply compare unequal). -/
def eqFilter (rows : List VRow) (c : String) (v : Value) : List VRow :=
  rows.filter (fun r => decide (rowGet r c = v))

/-- Ordered comparison filter against a numeric threshold.  On an
all-numeric column it keeps the rows passing `cmp`; a string cell
anywhere in the column makes the pandas comparison raise `TypeError`
(`none` here), which the caller's `except` absorbs. -/
def numericFilter (rows : List VRow) (c : String) (cmp : ℚ → Bool) : Option (List VRow) :=
  if (rows.map (fun r => rowGet r c)).all (fun v => (toNum? v).isSome) then
    some (rows.filter (fun r =>
      match toNum? (rowGet r c) with
      | some q => cmp q
      | none => false))
  else none

/-- Body of the `try` block applying one filter entry to the rows;
`none` is an exception absorbed by the source's `except: continue`. -/
def tryStep (rows : List VRow) (c : String) : FilterVal → Option (List VRow)
  | .fstr s =>
    match parseOp s.data with
    | .opGe rest =>
      match pyFloatL rest with
      | some t => numericFilter rows c (fun q => decide (t ≤ q))
      | none => none
    | .opLe rest =>
      match pyFloatL rest with
      | some t => numericFilter rows c (fun q => decide (q ≤ t))
      | none => none
    | .opGt rest =>
      match pyFloatL rest with
      | some t => numericFilter rows c (fun q => decide (t < q))
      | none => none
    | .opLt rest =>
      match pyFloatL rest with
      | some t => numericFilter rows c (fun q => decide (q < t))
      | none => none
    | .opEqEq rest =>
      some (eqFilter rows c (match pyFloatL rest with
        | some q => Value.num q
        | none => Value.str (String.mk rest)))
    | .plain => some (eqFilter rows c (Value.str s))
  | .flist vs => some (rows.filter (fun r => vs.contains (rowGet r c)))
  | .fnum q => some (eqFilter rows c (Value.num q))
  | .fbool b => some (eqFilter rows c (Value.num (if b then 1 else 0)))

/-- One iteration of the filter loop: skip unknown columns (warning only),
and fall back to the unfiltered rows when the `try` body raised. -/
def vStep (df : VFrame) (step : String × FilterVal) : VFrame :=
  if step.1 ∈ df.cols then
    match tryStep df.rows step.1 step.2 with
    | some rows' => ⟨df.cols, rows'⟩
    | none => df
  else df

/-- Model of `ProjectFilter.apply_filters`: an empty spec returns a copy of
the catalog, otherwise the entries are folded over the frame in order. -/
def apply_filters (df : VFrame) (filters : List (String × FilterVal)) : VFrame :=
  if filters.isEmpty then df else filters.foldl vStep df

/-- Risk-level columns whose categorical values the scorer maps to an
ordinal scale before normalizing. -/
def riskCols : List String :=
  ["Financial_Risk_Level", "Environmental_Risk_Level", "Social_Risk_Level", "Governance_Risk_Level"]

/-- Ordinal coding of a risk cell: Low→3, Medium→2, High→1, and any other
value (including numbers, which the source's dict-map sends to NaN before
`fillna(1)`) → 1. -/
def riskToNum (v : Value) : ℚ :=
  if v = Value.str ("Low") then 3 else if v = Value.str ("Medium") then 2 else 1

/-- All-numeric reading of a column, `none` on any string cell (the
uncaught `TypeError` the min-max arithmetic would raise). -/
def allNums? : List Value → Option (List ℚ)
  | [] => some []
  | v :: t =>
    match toNum? v with
    | none => none
    | some q => (allNums? t).map (fun l => q :: l)

/-- Numeric view of a scoring column: risk columns are ordinal-coded,
any other column must be numeric throughout. -/
def colNumeric? (risky : Bool) (vals : List Value) : Option (List ℚ) :=
  if risky then some (vals.map riskToNum) else allNums? vals

/-- Minimum of a column (source: `col_data.min()`; columns are nonempty
on the modelled path). -/
def minOf : List ℚ → ℚ
  | [] => 0
  | x :: t => t.foldl min x

/-- Maximum of a column (source: `col_data.max()`). -/
def maxOf : List ℚ → ℚ
  | [] => 0
  | x :: t => t.foldl max x

/-- Min-max normalization of one scoring column; a constant column (max
not strictly above min) normalizes to all ones. -/
def normalizeCol (xs : List ℚ) : List ℚ :=
  if minOf xs < maxOf xs then xs.map (fun x => (x - minOf xs) / (maxOf xs - minOf xs))
  else xs.map (fun _ => 1)

/-- Weight entries whose attribute exists in the frame, in weight order
(`scoring_columns` / `scoring_weights` of the source). -/
def scoringPairs (cols : List String) (weights : List (String × ℚ)) : List (String × ℚ) :=
  weights.filter (fun p => p.1 ∈ cols)

/-- Normalized columns paired with their raw weights, `none` if any
non-risk scoring column holds a string cell. -/
def buildNCols (df : VFrame) : List (String × ℚ) → Option (List (List ℚ × ℚ))
  | [] => some []
  | p :: rest =>
    match colNumeric? (riskCols.contains p.1) (df.getVCol p.1) with
    | none => none
    | some ns =>
      match buildNCols df rest with
      | none => none
      | some l => some ((normalizeCol ns, p.2) :: l)

/-- Property of a cell value: numeric and within the 0–100 score range. -/
def valueWithin100 (v : Value) : Prop :=
  match v with
  | .num q => 0 ≤ q ∧ q ≤ 100
  | .str _ => False

/-- Per-column weight after renormalization: `w / W` when the raw total is
positive, else `1 / k` over the `k` scoring columns. -/
def nWeight (W : ℚ) (k : ℕ) (w : ℚ) : ℚ := if 0 < W then w / W else 1 / (k : ℚ)

/-- Composite score of row `j`: the weighted sum of the normalized column
entries, scaled to 0–100. -/
def compositeFor (ncols : List (List ℚ × ℚ)) (W : ℚ) (k : ℕ) (j : ℕ) : ℚ :=
  (ncols.map (fun p => p.1.getD j 0 * nWeight W k p.2)).sum * 100

/-- Model of `ProjectScorer.score_projects`: empty frame returned as is;
with no valid scoring column the raw default attribute (or the scalar 0)
becomes the composite column; otherwise the weighted normalized composite
is assigned.  `none` models the uncaught `TypeError` on a string-valued
non-risk scoring column. -/
def score_projects (df : VFrame) (weights : List (String × ℚ)) : Option VFrame :=
  if df.rows.isEmpty then some df
  else if (scoringPairs df.cols weights).isEmpty then
    some (addVCol df compositeCol
      (if overallCol ∈ df.cols then df.getVCol overallCol
       else df.rows.map (fun _ => Value.num 0)))
  else
    match buildNCols df (scoringPairs df.cols weights) with
    | none => none
    | some ncols =>
      some (addVCol df compositeCol
        ((List.range df.rows.length).map
          (fun j => Value.num (compositeFor ncols
            ((scoringPairs df.cols weights).map (fun p => p.2)).sum
            (scoringPairs df.cols weights).length j))))

/-- Index permutation `rank_projects` applies to the rows in the exact
small-array regime: pandas `sort_values(ascending=False)` reverses the
ascending argsort numpy returns, which below the introsort cutoff is the
stable insertion sort modelled by `argsortAsc`.  Above the cutoff the
backend guarantees only `IsAscArgsort` of the underlying ascending
argsort, so tie order there is unspecified. -/
def rankPerm (scores : List ℚ) : List ℕ := argsortDesc scores

/-- Rank column assigned after the sort: `range(1, len+1)`. -/
def ranksList (n : ℕ) : List ℕ := (List.range n).map (fun k => k + 1)

/-- Index permutation the specification's words describe: sort descending
by score with ties kept in original catalog order (a stable descending
sort).  Modelled from the spec for comparison against `rankPerm`. -/
def specStableDescPerm (scores : List ℚ) : List ℕ :=
  ((enumL scores).insertionSort (fun a b => b.2 < a.2 ∨ (a.2 = b.2 ∧ a.1 ≤ b.1))).map
    (fun p => p.1)

theorem numericFilter_sublist (rows : List VRow) (c : String) (cmp : ℚ → Bool)
    (rows' : List VRow) (h : numericFilter rows c cmp = some rows') : rows'.Sublist rows := by
  unfold numericFilter at h
  split at h
  · exact (Option.some.inj h) ▸ List.filter_sublist rows
  · cases h

theorem eqFilter_sublist (rows : List VRow) (c : String) (v : Value) :
    (eqFilter rows c v).Sublist rows := List.filter_sublist rows

theorem tryStep_sublist (rows : List VRow) (c : String) (fv : FilterVal) (rows' : List VRow)
    (h : tryStep rows c fv = some rows') : rows'.Sublist rows := by
  cases fv with
  | fstr s =>
    simp only [tryStep] at h
    split at h
    · split at h
      · exact numericFilter_sublist _ _ _ _ h
      · cases h
    · split at h
      · exact numericFilter_sublist _ _ _ _ h
      · cases h
    · split at h
      · exact numericFilter_sublist _ _ _ _ h
      · cases h
    · split at h
      · exact numericFilter_sublist _ _ _ _ h
      · cases h
    · exact (Option.some.inj h) ▸ eqFilter_sublist _ _ _
    · exact (Option.some.inj h) ▸ eqFilter_sublist _ _ _
  | flist vs =>
    simp only [tryStep] at h
    exact (Option.some.inj h) ▸ List.filter_sublist rows
  | fnum q =>
    simp only [tryStep] at h
    exact (Option.some.inj h) ▸ eqFilter_sublist _ _ _
  | fbool b =>
    simp only [tryStep] at h
    exact (Option.some.inj h) ▸ eqFilter_sublist _ _ _

theorem vStep_sublist (df : VFrame) (s : String × FilterVal) : (vStep df s).rows.Sublist df.rows := by
  unfold vStep
  split
  · cases h : tryStep df.rows s.1 s.2
    · simp
    · simpa using tryStep_sublist df.rows s.1 s.2 _ h
  · exact List.Sublist.refl _

theorem apply_filters_step (df : VFrame) (fs : List (String × FilterVal))
    (p : String × FilterVal) :
    apply_filters df (fs ++ [p]) = vStep (apply_filters df fs) p := by
  unfold apply_filters
  cases fs with
  | nil => simp
  | cons q fs' => simp [List.foldl_append]

theorem apply_filters_sublist (df : VFrame) (fs : List (String × FilterVal)) :
    (apply_filters df fs).rows.Sublist df.rows := by
  induction fs using List.reverseRecOn with
  | nil => simp [apply_filters]
  | append_singleton fs' p ih =>
    rw [apply_filters_step]
    exact (vStep_sublist _ p).trans ih

/-- C6: for every catalog and FilterSpec the result of `apply_filters` is a
subset (in fact an order-preserving sublist) of the catalog's records, and
extending the FilterSpec by one more predicate entry can only shrink (or
keep) the result size. -/
theorem C6_filter_subset_and_monotone (df : VFrame) (fs : List (String × FilterVal))
    (p : String × FilterVal) :
    (apply_filters df fs).rows.Sublist df.rows ∧
    (apply_filters df (fs ++ [p])).rows.length ≤ (apply_filters df fs).rows.length := by
  refine ⟨apply_filters_sublist df fs, ?_⟩
  rw [apply_filters_step]
  exact (vStep_sublist _ p).length_le

/-- C10: with the score or cost column absent from a non-empty frame,
`optimize_projects` returns the input frame itself — every record, no
`Selection_Weight` column, no budget check, state untouched. -/
theorem C10_missing_columns_identity (lin : LinprogOutcome) (st : Option Diagnostics)
    (df : NumFrame) (budget : ℚ) (sc cc : String)
    (hne : df.rows ≠ []) (hmiss : ¬ (sc ∈ df.cols ∧ cc ∈ df.cols)) :
    optimize_projects lin st df budget sc cc = .ok (df, st) := by
  have h1 : df.rows.isEmpty = false := by simp [List.isEmpty_iff, hne]
  unfold optimize_projects
  rw [h1]
  simp [hmiss]

theorem C10_missing_columns_identity_witness :
    optimize_projects (.raise ("err")) none ⟨[costColDefault], [[(costColDefault, 5)]]⟩
        10 compositeCol costColDefault
      = .ok (⟨[costColDefault], [[(costColDefault, 5)]]⟩, none) :=
  C10_missing_columns_identity _ _ _ _ _ _ (by decide)
    (by simp [compositeCol, costColDefault])

/-- C9: when the LP solve reports failure or raises, `optimize_projects`
returns normally (`Except.ok`, no exception escapes) with exactly the
greedy fallback's selection, the stored state untouched. -/
theorem C9_solver_failure_falls_back (st : Option Diagnostics) (df : NumFrame) (budget : ℚ)
    (sc cc : String) (m : String) (x : List ℚ)
    (hne : df.rows ≠ []) (hcols : sc ∈ df.cols ∧ cc ∈ df.cols) :
    optimize_projects (.raise m) st df budget sc cc
        = .ok (greedy_fallback df budget sc cc, st) ∧
    optimize_projects (.res x false) st df budget sc cc
        = .ok (greedy_fallback df budget sc cc, st) := by
  have h1 : df.rows.isEmpty = false := by simp [List.isEmpty_iff, hne]
  constructor <;> (unfold optimize_projects; rw [h1]; simp [hcols])

theorem C9_solver_failure_falls_back_witness :
    optimize_projects (.raise ("infeasible")) none
        ⟨[compositeCol, costColDefault], [[(compositeCol, 7), (costColDefault, 5)]]⟩
        10 compositeCol costColDefault
      = .ok (greedy_fallback
          ⟨[compositeCol, costColDefault], [[(compositeCol, 7), (costColDefault, 5)]]⟩
          10 compositeCol costColDefault, none) :=
  (C9_solver_failure_falls_back none _ 10 _ _ _ [] (by decide) (by decide)).1

theorem pairwise_and_of {α : Type} {R S : α → α → Prop} {l : List α}
    (hR : l.Pairwise R) (hS : l.Pairwise S) : l.Pairwise (fun a b => R a b ∧ S a b) := by
  induction l with
  | nil => exact List.Pairwise.nil
  | cons a t ih =>
    rcases List.pairwise_cons.1 hR with ⟨hRa, hRt⟩
    rcases List.pairwise_cons.1 hS with ⟨hSa, hSt⟩
    exact List.pairwise_cons.2 ⟨fun b hb => ⟨hRa b hb, hSa b hb⟩, ih hRt hSt⟩

theorem enumL_mem {l : List ℚ} {p : ℕ × ℚ} (hp : p ∈ enumL l) :
    p.1 < l.length ∧ p.2 = l.getD p.1 0 := by
  unfold enumL at hp
  simp only [List.mem_map, List.mem_range] at hp
  obtain ⟨i, hi, rfl⟩ := hp
  exact ⟨hi, rfl⟩

theorem enumL_map_fst (l : List ℚ) : (enumL l).map (fun p => p.1) = List.range l.length := by
  unfold enumL
  rw [List.map_map]
  show (List.range l.length).map (fun i => i) = List.range l.length
  simp

theorem enumL_pairwise_ne (l : List ℚ) : (enumL l).Pairwise (fun a b => a.1 ≠ b.1) := by
  unfold enumL
  rw [List.pairwise_map]
  exact (List.nodup_range _).imp (fun h => h)

theorem argsortAsc_perm (l : List ℚ) : (argsortAsc l).Perm (List.range l.length) := by
  unfold argsortAsc
  have h := (List.perm_insertionSort argRel (enumL l)).map (fun p => p.1)
  rw [enumL_map_fst] at h
  exact h

theorem argsortDesc_perm (l : List ℚ) : (argsortDesc l).Perm (List.range l.length) :=
  (List.reverse_perm _).trans (argsortAsc_perm l)

theorem argsortDesc_mem {l : List ℚ} {i : ℕ} : i ∈ argsortDesc l ↔ i < l.length := by
  rw [(argsortDesc_perm l).mem_iff, List.mem_range]

theorem argsortDesc_nodup (l : List ℚ) : (argsortDesc l).Nodup :=
  ((argsortDesc_perm l).nodup_iff).2 (List.nodup_range _)

theorem argsortDesc_pairwise (l : List ℚ) :
    (argsortDesc l).Pairwise
      (fun i j => l.getD j 0 < l.getD i 0 ∨ (l.getD i 0 = l.getD j 0 ∧ j < i)) := by
  unfold argsortDesc argsortAsc
  rw [List.pairwise_reverse, List.pairwise_map]
  have hsorted : List.Pairwise argRel ((enumL l).insertionSort argRel) :=
    List.sorted_insertionSort argRel (enumL l)
  have hne : ((enumL l).insertionSort argRel).Pairwise (fun a b => a.1 ≠ b.1) := by
    have hperm : (((enumL l).insertionSort argRel).map (fun p => p.1)).Perm
        (List.range l.length) := by
      have h := (List.perm_insertionSort argRel (enumL l)).map (fun p => p.1)
      rw [enumL_map_fst] at h
      exact h
    have hnd : (((enumL l).insertionSort argRel).map (fun p => p.1)).Nodup :=
      hperm.nodup_iff.2 (List.nodup_range _)
    exact List.pairwise_map.1 hnd
  have hval : ∀ p ∈ (enumL l).insertionSort argRel, p.2 = l.getD p.1 0 := by
    intro p hp
    exact (enumL_mem ((List.perm_insertionSort argRel (enumL l)).subset hp)).2
  refine (pairwise_and_of hsorted hne).imp_of_mem ?_
  intro a b ha hb hab
  obtain ⟨harg, hfst⟩ := hab
  unfold argRel at harg
  rw [hval a ha, hval b hb] at harg
  rcases harg with h | ⟨h, hle⟩
  · exact Or.inl h
  · exact Or.inr ⟨h.symm, lt_of_le_of_ne hle hfst⟩

theorem argsortDesc_pairwise_le (l : List ℚ) :
    (argsortDesc l).Pairwise (fun i j => l.getD j 0 ≤ l.getD i 0) := by
  refine (argsortDesc_pairwise l).imp ?_
  intro i j h
  rcases h with h | ⟨h, _⟩
  · exact le_of_lt h
  · exact le_of_eq h.symm

theorem argsortAsc_isAscArgsort (l : List ℚ) : IsAscArgsort l (argsortAsc l) := by
  refine ⟨argsortAsc_perm l, ?_⟩
  have h := argsortDesc_pairwise_le l
  unfold argsortDesc at h
  exact List.pairwise_reverse.1 h

theorem greedyRun_sublist (costs : List ℚ) (l : List ℕ) :
    ∀ b : ℚ, (greedyRun costs l b).Sublist l := by
  induction l with
  | nil => intro b; exact List.Sublist.refl _
  | cons i rest ih =>
    intro b
    unfold greedyRun
    split
    · exact (ih _).cons₂ i
    · exact (ih _).cons i

theorem greedyRun_sum (costs : List ℚ) (l : List ℕ) :
    ∀ b : ℚ, 0 ≤ b → ((greedyRun costs l b).map (fun i => costs.getD i 0)).sum ≤ b := by
  induction l with
  | nil => intro b hb; simpa [greedyRun] using hb
  | cons i rest ih =>
    intro b hb
    unfold greedyRun
    split
    · rename_i hle
      simp only [List.map_cons, List.sum_cons]
      have h2 := ih (b - costs.getD i 0) (by linarith)
      linarith
    · exact ih b hb

theorem greedyRun_none (costs : List ℚ) (l : List ℕ) :
    ∀ b : ℚ, (∀ i ∈ l, 0 < costs.getD i 0) → b ≤ 0 → greedyRun costs l b = [] := by
  induction l with
  | nil => intro b _ _; rfl
  | cons i rest ih =>
    intro b hpos hb
    have h1 : ¬ costs.getD i 0 ≤ b := by
      have := hpos i (List.mem_cons_self i rest)
      linarith
    unfold greedyRun
    rw [if_neg h1]
    exact ih b (fun j hj => hpos j (List.mem_cons_of_mem _ hj)) hb

theorem greedyRun_all (costs : List ℚ) (l : List ℕ) :
    ∀ b : ℚ, (∀ i ∈ l, 0 ≤ costs.getD i 0) →
    (l.map (fun i => costs.getD i 0)).sum ≤ b → greedyRun costs l b = l := by
  induction l with
  | nil => intro b _ _; rfl
  | cons i rest ih =>
    intro b hpos hsum
    simp only [List.map_cons, List.sum_cons] at hsum
    have hrest : 0 ≤ (rest.map (fun i => costs.getD i 0)).sum := by
      apply List.sum_nonneg
      intro x hx
      obtain ⟨j, hj, rfl⟩ := List.mem_map.1 hx
      exact hpos j (List.mem_cons_of_mem _ hj)
    have h1 : costs.getD i 0 ≤ b := by linarith
    unfold greedyRun
    rw [if_pos h1,
      ih (b - costs.getD i 0) (fun j hj => hpos j (List.mem_cons_of_mem _ hj)) (by linarith)]

theorem greedyRun_mem_iff (costs : List ℚ) (i : ℕ) (post : List ℕ) :
    ∀ (pre : List ℕ) (b : ℚ), (pre ++ i :: post).Nodup →
    (i ∈ greedyRun costs (pre ++ i :: post) b ↔ costs.getD i 0 ≤ remAfter costs pre b) := by
  intro pre
  induction pre with
  | nil =>
    intro b hnd
    simp only [List.nil_append] at hnd ⊢
    unfold greedyRun remAfter
    constructor
    · intro hmem
      by_contra hle
      rw [if_neg hle] at hmem
      have : i ∈ post := (greedyRun_sublist costs post b).subset hmem
      exact (List.nodup_cons.1 hnd).1 this
    · intro hle
      rw [if_pos hle]
      exact List.mem_cons_self _ _
  | cons k pre' ih =>
    intro b hnd
    simp only [List.cons_append] at hnd ⊢
    have hnd' : (pre' ++ i :: post).Nodup := (List.nodup_cons.1 hnd).2
    have hik : i ≠ k := by
      intro he
      apply (List.nodup_cons.1 hnd).1
      exact List.mem_append_right pre' (he ▸ List.mem_cons_self i post)
    unfold greedyRun remAfter
    by_cases hk : costs.getD k 0 ≤ b
    · rw [if_pos hk, if_pos hk, List.mem_cons]
      constructor
      · intro h
        cases h with
        | inl h => exact absurd h hik
        | inr h => exact (ih _ hnd').1 h
      · intro h
        exact Or.inr ((ih _ hnd').2 h)
    · rw [if_neg hk, if_neg hk]
      exact ih _ hnd'

theorem posSum_nonneg (vals : List ℚ) : 0 ≤ posSum vals := by
  apply List.sum_nonneg
  intro x hx
  obtain ⟨v, _, rfl⟩ := List.mem_map.1 hx
  exact le_max_right v 0

theorem maskedSum_le_posSum (vals : List ℚ) :
    ∀ mask : List Bool, maskedSum vals mask ≤ posSum vals := by
  induction vals with
  | nil => intro mask; simp [maskedSum, posSum]
  | cons v vs ih =>
    intro mask
    cases mask with
    | nil => simpa [maskedSum] using posSum_nonneg (v :: vs)
    | cons b bs =>
      have h1 : (if b then v else 0) ≤ max v 0 := by
        cases b <;> simp [le_max_left, le_max_right]
      have h2 := ih bs
      simp only [maskedSum, posSum, List.zipWith_cons_cons, List.map_cons, List.sum_cons] at *
      linarith

theorem maskedSum_nonneg (vals : List ℚ) :
    ∀ mask : List Bool, (∀ v ∈ vals, 0 ≤ v) → 0 ≤ maskedSum vals mask := by
  induction vals with
  | nil => intro mask _; simp [maskedSum]
  | cons v vs ih =>
    intro mask hv
    cases mask with
    | nil => simp [maskedSum]
    | cons b bs =>
      have h1 : (0:ℚ) ≤ if b then v else 0 := by
        cases b
        · simp
        · simpa using hv v (List.mem_cons_self _ _)
      have h2 := ih bs (fun w hw => hv w (List.mem_cons_of_mem _ hw))
      simp only [maskedSum, List.zipWith_cons_cons, List.sum_cons] at *
      linarith

theorem maskedSum_le_sum (vals : List ℚ) :
    ∀ mask : List Bool, (∀ v ∈ vals, 0 ≤ v) → maskedSum vals mask ≤ vals.sum := by
  induction vals with
  | nil => intro mask _; simp [maskedSum]
  | cons v vs ih =>
    intro mask hv
    cases mask with
    | nil =>
      have : 0 ≤ (v :: vs).sum := List.sum_nonneg hv
      simpa [maskedSum] using this
    | cons b bs =>
      have h1 : (if b then v else 0) ≤ v := by
        cases b
        · simpa using hv v (List.mem_cons_self _ _)
        · simp
      have h2 := ih bs (fun w hw => hv w (List.mem_cons_of_mem _ hw))
      simp only [maskedSum, List.zipWith_cons_cons, List.sum_cons] at *
      linarith

theorem maskedSum_replicate (vals : List ℚ) :
    maskedSum vals (List.replicate vals.length true) = vals.sum := by
  induction vals with
  | nil => simp [maskedSum]
  | cons v vs ih =>
    simp only [maskedSum, List.length_cons, List.replicate_succ, List.zipWith_cons_cons,
      List.sum_cons, if_true] at *
    rw [ih]

theorem maskedSum_forall₂ (vals : List ℚ) (mask : List Bool)
    (h : List.Forall₂ (fun v b => 0 ≤ v ∧ (0 < v → b = true)) vals mask) :
    maskedSum vals mask = posSum vals := by
  induction h with
  | nil => simp [maskedSum, posSum]
  | @cons v b vs bs hrel _ ih =>
    obtain ⟨hv0, hvb⟩ := hrel
    have hterm : (if b then v else 0) = max v 0 := by
      rcases lt_or_eq_of_le hv0 with hlt | heq
      · rw [hvb hlt, if_pos rfl, max_eq_left hv0]
      · rw [← heq]
        cases b <;> simp
    simp only [maskedSum, posSum, List.zipWith_cons_cons, List.map_cons, List.sum_cons] at *
    rw [hterm, ih]

theorem colNe1 : compositeCol ≠ costColDefault := by decide

theorem colNe2 : weightCol ≠ costColDefault := by decide

theorem colNe3 : weightCol ≠ compositeCol := by decide

theorem colNe4 : effCol ≠ costColDefault := by decide

theorem colNe5 : effCol ≠ compositeCol := by decide

theorem colNe6 : weightCol ≠ effCol := by decide

theorem colNe7 : costColDefault ≠ compositeCol := by decide

theorem maskedSum_rangeMask (vals : List ℚ) (p : ℕ → Bool) :
    maskedSum vals ((List.range vals.length).map p)
      = (((List.range vals.length).filter p).map (fun i => vals.getD i 0)).sum := by
  induction vals using List.reverseRecOn with
  | nil => simp [maskedSum]
  | append_singleton vs v ih =>
    rw [List.length_append, List.length_singleton, List.range_succ, List.map_append,
      List.filter_append]
    unfold maskedSum at *
    have hlen2 : vs.length = ((List.range vs.length).map p).length := by simp
    rw [List.zipWith_append _ vs [v] _ _ hlen2, List.sum_append, List.map_append,
      List.sum_append]
    have hfirst : (((List.range vs.length).filter p).map (fun i => (vs ++ [v]).getD i 0)).sum
        = (((List.range vs.length).filter p).map (fun i => vs.getD i 0)).sum := by
      apply congrArg
      apply List.map_congr_left
      intro i hi
      have hilt : i < vs.length := List.mem_range.1 (List.mem_of_mem_filter hi)
      exact List.getD_append _ _ _ _ hilt
    rw [hfirst, ih]
    have hgetD : (vs ++ [v]).getD vs.length 0 = v := by
      rw [List.getD_append_right _ _ _ _ (le_refl _)]
      simp
    by_cases hp : p vs.length
    · simp [hp, hgetD]
    · simp [hp]

theorem sum_over_filter_mem (l : List ℕ) (n : ℕ) (f : ℕ → ℚ) (hnd : l.Nodup)
    (hlt : ∀ i ∈ l, i < n) :
    (((List.range n).filter (fun i => decide (i ∈ l))).map f).sum = (l.map f).sum := by
  have hperm : ((List.range n).filter (fun i => decide (i ∈ l))).Perm l := by
    apply (List.perm_ext_iff_of_nodup ((List.nodup_range n).filter _) hnd).2
    intro a
    simp only [List.mem_filter, List.mem_range, decide_eq_true_eq]
    exact ⟨fun h => h.2, fun h => ⟨hlt a h, h⟩⟩
  exact (hperm.map f).sum_eq

theorem greedySelEff_getD (costs scores : List ℚ) (j : ℕ) (hj : j < scores.length)
    (hj' : j < costs.length) :
    (greedySelEff costs scores).getD j 0 = specEfficiency (scores.getD j 0) (costs.getD j 0) := by
  have hlen : j < (greedySelEff costs scores).length := by
    unfold greedySelEff
    rw [List.length_zipWith]
    exact lt_min hj hj'
  rw [List.getD_eq_getElem _ _ hlen, List.getD_eq_getElem _ _ hj, List.getD_eq_getElem _ _ hj']
  unfold greedySelEff specEfficiency
  simp [List.getElem_zipWith]

/-- C4 (amended): in `_greedy_selection` each record's efficiency is its
score over its cost with 0 at zero cost, exactly as the claim says; but in
`_greedy_fallback` a zero cost is replaced by 1 before dividing, so a
zero-cost record's efficiency equals its raw score rather than 0 (for
nonzero costs both agree with score/cost).  Records are considered in
descending-efficiency order, and an index is admitted exactly when its
cost does not exceed the remaining budget at its turn, which admission
then decrements. -/
theorem C4_greedy_efficiency_and_admission (scores costs : List ℚ) (s c b : ℚ)
    (i j : ℕ) (pre post : List ℕ)
    (hj : j < scores.length) (hj' : j < costs.length) (hc : c ≠ 0)
    (hnd : (pre ++ i :: post).Nodup) :
    (greedySelEff costs scores).getD j 0
        = specEfficiency (scores.getD j 0) (costs.getD j 0) ∧
    fallbackEff s c = s / c ∧
    fallbackEff s 0 = s ∧
    (argsortDesc (greedySelEff costs scores)).Pairwise
      (fun a b' => (greedySelEff costs scores).getD b' 0
          ≤ (greedySelEff costs scores).getD a 0) ∧
    (i ∈ greedyRun costs (pre ++ i :: post) b ↔ costs.getD i 0 ≤ remAfter costs pre b) := by
  refine ⟨greedySelEff_getD costs scores j hj hj', ?_, ?_,
    argsortDesc_pairwise_le _, greedyRun_mem_iff costs i post pre b hnd⟩
  · unfold fallbackEff
    rw [if_neg hc]
  · unfold fallbackEff
    norm_num

theorem C4_greedy_efficiency_and_admission_witness :
    (greedySelEff [2, 0] [4, 6]).getD 1 0 = specEfficiency ([4, 6].getD 1 0) ([2, 0].getD 1 0) ∧
    fallbackEff 7 3 = 7 / 3 ∧
    fallbackEff 7 0 = 7 ∧
    (argsortDesc (greedySelEff [2, 0] [4, 6])).Pairwise
      (fun a b' => (greedySelEff [2, 0] [4, 6]).getD b' 0
          ≤ (greedySelEff [2, 0] [4, 6]).getD a 0) ∧
    (1 ∈ greedyRun [2, 0] ([0] ++ 1 :: []) 10 ↔ [2, 0].getD 1 0 ≤ remAfter [2, 0] [0] 10) :=
  C4_greedy_efficiency_and_admission [4, 6] [2, 0] 7 3 10 1 1 [0] []
    (by decide) (by decide) (by norm_num) (by decide)

/-- Frame with a single zero-cost record of score 5, exercising the
zero-cost branch of `_greedy_fallback`. -/
def c4df : NumFrame := ⟨[compositeCol, costColDefault], [[(compositeCol, 5), (costColDefault, 0)]]⟩

/-- C4 (counterexample): the claim says efficiency is 0 when the cost is 0,
but `_greedy_fallback` (which `replace`s a zero cost by 1) assigns the
zero-cost record of score 5 the efficiency 5, not 0 — visible in the
`Efficiency` column of its result. -/
theorem C4_counterexample :
    fallbackEff 5 0 = 5 ∧
    (greedy_fallback c4df 10 compositeCol costColDefault).getCol effCol = [5] ∧
    ¬ (5 : ℚ) = 0 := by
  refine ⟨by unfold fallbackEff; norm_num, ?_, by norm_num⟩
  norm_num [greedy_fallback, c4df, NumFrame.getCol, addNum, rowGetN, fallbackEff,
    List.insertionSort, List.orderedInsert, greedyAdmit, colNe1, colNe2, colNe3, colNe4,
    colNe5, colNe6, colNe7]

theorem greedySelection_cost (costs scores : List ℚ) (b : ℚ) (hb : 0 ≤ b) :
    maskedSum costs (greedySelection costs scores b) ≤ b := by
  unfold greedySelection
  rw [maskedSum_rangeMask]
  have hnd : (greedyRun costs (argsortDesc (greedySelEff costs scores)) b).Nodup :=
    (greedyRun_sublist _ _ _).nodup (argsortDesc_nodup _)
  have hlt : ∀ i ∈ greedyRun costs (argsortDesc (greedySelEff costs scores)) b,
      i < costs.length := by
    intro i hi
    have h1 := (greedyRun_sublist _ _ _).subset hi
    have h2 := argsortDesc_mem.1 h1
    unfold greedySelEff at h2
    rw [List.length_zipWith] at h2
    exact lt_of_lt_of_le h2 (min_le_right _ _)
  rw [sum_over_filter_mem _ costs.length _ hnd hlt]
  exact greedyRun_sum costs _ b hb

theorem rowGetN_addNum (r : NumRow) (c c' : String) (v : ℚ) :
    rowGetN (addNum r c' v) c = if c' = c then v else rowGetN r c := rfl

theorem greedyAdmit_sum (cc : String) (rows : List NumRow) :
    ∀ b : ℚ, 0 ≤ b → ((greedyAdmit cc rows b).map (fun r => rowGetN r cc)).sum ≤ b := by
  induction rows with
  | nil => intro b hb; simpa [greedyAdmit] using hb
  | cons r rest ih =>
    intro b hb
    unfold greedyAdmit
    split
    · rename_i hle
      simp only [List.map_cons, List.sum_cons]
      have h2 := ih (b - rowGetN r cc) (by linarith)
      linarith
    · exact ih b hb

theorem greedy_fallback_cost (df : NumFrame) (b : ℚ) (sc cc : String)
    (hb : 0 ≤ b) (h1 : cc ≠ weightCol) :
    ((greedy_fallback df b sc cc).getCol cc).sum ≤ b := by
  simp only [greedy_fallback, NumFrame.getCol]
  split
  · simpa using hb
  · rw [List.map_map]
    have heq : ∀ r, (fun r => rowGetN r cc) ((fun r => addNum r weightCol 1) r)
        = rowGetN r cc := by
      intro r
      show rowGetN (addNum r weightCol 1) cc = rowGetN r cc
      rw [rowGetN_addNum, if_neg (Ne.symm h1)]
    calc ((greedyAdmit cc _ b).map
            ((fun r => rowGetN r cc) ∘ (fun r => addNum r weightCol 1))).sum
        = ((greedyAdmit cc _ b).map (fun r => rowGetN r cc)).sum := by
          apply congrArg
          exact List.map_congr_left (fun r _ => heq r)
      _ ≤ b := greedyAdmit_sum cc _ b hb

/-- C1 (amended): selections produced by the greedy routines — the
rescue `_greedy_selection` inside the LP-success branch and the
`_greedy_fallback` taken on solver failure — always have total cost
within the budget (for a nonnegative budget).  The LP-threshold path
carries no such post-hoc check and can exceed the budget
(see the counterexample). -/
theorem C1_greedy_within_budget (costs scores : List ℚ) (df : NumFrame)
    (b : ℚ) (sc cc : String) (hb : 0 ≤ b) (h1 : cc ≠ weightCol) :
    maskedSum costs (greedySelection costs scores b) ≤ b ∧
    ((greedy_fallback df b sc cc).getCol cc).sum ≤ b :=
  ⟨greedySelection_cost costs scores b hb, greedy_fallback_cost df b sc cc hb h1⟩

theorem C1_greedy_within_budget_witness :
    maskedSum [100] (greedySelection [100] [90] 60) ≤ 60 ∧
    ((greedy_fallback ⟨[compositeCol, costColDefault],
        [[(compositeCol, 90), (costColDefault, 100)]]⟩ 60 compositeCol
        costColDefault).getCol costColDefault).sum ≤ 60 :=
  C1_greedy_within_budget [100] [90] _ 60 compositeCol costColDefault
    (by norm_num) (by decide)

/-- Frame with a single record of score 90 and cost 100, on which the LP
optimum at budget 60 is the fractional vector [3/5]. -/
def ceDF1 : NumFrame := ⟨[compositeCol, costColDefault], [[(compositeCol, 90), (costColDefault, 100)]]⟩

/-- C1 (counterexample): with one record (cost 100, score 90) and budget
60 the unique LP optimum is x = [0.6]; 0.6 > 0.5, so the LP-threshold path
returns that record as a non-empty selection of total cost 100, exceeding
the budget 60 — no post-hoc budget check exists on this path. -/
theorem C1_counterexample :
    lpOptimal [100] [90] 60 [3/5] ∧
    ((optRun (.res [3/5] true) none ceDF1 60 compositeCol costColDefault).1.getCol
        costColDefault).sum = 100 ∧
    ¬ ((100 : ℚ) ≤ 60) ∧
    (optRun (.res [3/5] true) none ceDF1 60 compositeCol costColDefault).1.rows ≠ [] := by
  have hfeas : lpFeasible [100] 60 [3/5] := by
    refine ⟨rfl, ?_, ?_⟩
    · intro xi hxi
      simp only [List.mem_singleton] at hxi
      subst hxi
      norm_num
    · norm_num [dotL]
  have hopt : lpOptimal [100] [90] 60 [3/5] := by
    refine ⟨hfeas, ?_⟩
    intro y hy
    obtain ⟨hlen, hbound, hcost⟩ := hy
    obtain ⟨a, rfl⟩ := List.length_eq_one.1 hlen
    norm_num [dotL] at hcost ⊢
    linarith
  have hrun : (optRun (.res [3/5] true) none ceDF1 60 compositeCol costColDefault).1
      = selectRows ceDF1 [3/5] [true] := by
    unfold optRun optimize_projects
    norm_num [ceDF1, thresholdMask, selectRows]
  refine ⟨hopt, ?_, by norm_num, ?_⟩
  · rw [hrun]
    norm_num [selectRows, ceDF1, NumFrame.getCol, addNum, rowGetN, weightCol,
      costColDefault, compositeCol]
    decide
  · rw [hrun]
    norm_num [selectRows, ceDF1]

/-- C7: when the risk cap is exceeded, the `risk_limit` post-processing
keeps every favorable record, returns only records of the input selection,
keeps exactly `maxHigh` unfavorable records, and every pruned unfavorable
record scores no higher than every kept unfavorable record — i.e. exactly
the lowest-composite-score unfavorable records are removed until the cap
is met. -/
theorem C7_risk_cap {α : Type} (maxHigh : ℕ) (riskOf : α → String) (scoreOf : α → ℚ)
    (rows : List α)
    (hcap : maxHigh < (rows.filter (fun r => riskOf r = highLabel)).length) :
    (∀ r ∈ rows, ¬ riskOf r = highLabel →
        r ∈ apply_constraint_risk maxHigh riskOf scoreOf rows) ∧
    (∀ r ∈ apply_constraint_risk maxHigh riskOf scoreOf rows, r ∈ rows) ∧
    ((apply_constraint_risk maxHigh riskOf scoreOf rows).filter
        (fun r => riskOf r = highLabel)).length = maxHigh ∧
    (∀ u ∈ rows, riskOf u = highLabel →
      u ∉ apply_constraint_risk maxHigh riskOf scoreOf rows →
      ∀ v ∈ apply_constraint_risk maxHigh riskOf scoreOf rows, riskOf v = highLabel →
        scoreOf u ≤ scoreOf v) := by
  haveI hTot : IsTotal α (fun a b => scoreOf b ≤ scoreOf a) := ⟨fun a b => le_total _ _⟩
  haveI hTrans : IsTrans α (fun a b => scoreOf b ≤ scoreOf a) :=
    ⟨fun a b c h1 h2 => le_trans h2 h1⟩
  have hres : apply_constraint_risk maxHigh riskOf scoreOf rows
      = rows.filter (fun r => ¬ riskOf r = highLabel)
        ++ ((rows.filter (fun r => riskOf r = highLabel)).insertionSort
            (fun a b => scoreOf b ≤ scoreOf a)).take maxHigh := by
    simp only [apply_constraint_risk]
    rw [if_pos hcap]
  have hperm : ((rows.filter (fun r => riskOf r = highLabel)).insertionSort
      (fun a b => scoreOf b ≤ scoreOf a)).Perm (rows.filter (fun r => riskOf r = highLabel)) :=
    List.perm_insertionSort _ _
  have hsorted : List.Pairwise (fun a b => scoreOf b ≤ scoreOf a)
      ((rows.filter (fun r => riskOf r = highLabel)).insertionSort
        (fun a b => scoreOf b ≤ scoreOf a)) :=
    List.sorted_insertionSort _ _
  have hhighmem : ∀ a ∈ ((rows.filter (fun r => riskOf r = highLabel)).insertionSort
      (fun a b => scoreOf b ≤ scoreOf a)), riskOf a = highLabel := by
    intro a ha
    have h1 := hperm.subset ha
    have h2 := List.mem_filter.1 h1
    simpa using h2.2
  refine ⟨?_, ?_, ?_, ?_⟩
  · intro r hr hnr
    rw [hres]
    apply List.mem_append_left
    exact List.mem_filter.2 ⟨hr, by simpa using hnr⟩
  · intro r hr
    rw [hres] at hr
    rcases List.mem_append.1 hr with h | h
    · exact (List.mem_filter.1 h).1
    · exact (List.mem_filter.1 (hperm.subset (List.take_subset _ _ h))).1
  · rw [hres, List.filter_append]
    have hnil : (rows.filter (fun r => ¬ riskOf r = highLabel)).filter
        (fun r => riskOf r = highLabel) = [] := by
      rw [List.filter_eq_nil_iff]
      intro a ha
      have h2 := List.mem_filter.1 ha
      simpa using h2.2
    have hself : (((rows.filter (fun r => riskOf r = highLabel)).insertionSort
        (fun a b => scoreOf b ≤ scoreOf a)).take maxHigh).filter
          (fun r => riskOf r = highLabel)
        = ((rows.filter (fun r => riskOf r = highLabel)).insertionSort
            (fun a b => scoreOf b ≤ scoreOf a)).take maxHigh := by
      rw [List.filter_eq_self]
      intro a ha
      simpa using hhighmem a (List.take_subset _ _ ha)
    rw [hnil, hself, List.nil_append, List.length_take, hperm.length_eq]
    exact min_eq_left (le_of_lt hcap)
  · intro u hu huh hunot v hv hvh
    have huhigh : u ∈ rows.filter (fun r => riskOf r = highLabel) :=
      List.mem_filter.2 ⟨hu, by simpa using huh⟩
    have husort := hperm.mem_iff.2 huhigh
    have hunotake : u ∉ ((rows.filter (fun r => riskOf r = highLabel)).insertionSort
        (fun a b => scoreOf b ≤ scoreOf a)).take maxHigh := by
      intro hcon
      exact hunot (hres ▸ List.mem_append_right _ hcon)
    have hudrop : u ∈ ((rows.filter (fun r => riskOf r = highLabel)).insertionSort
        (fun a b => scoreOf b ≤ scoreOf a)).drop maxHigh := by
      have husort2 : u ∈ ((rows.filter (fun r => riskOf r = highLabel)).insertionSort
            (fun a b => scoreOf b ≤ scoreOf a)).take maxHigh
          ++ ((rows.filter (fun r => riskOf r = highLabel)).insertionSort
            (fun a b => scoreOf b ≤ scoreOf a)).drop maxHigh := by
        rw [List.take_append_drop]
        exact husort
      rcases List.mem_append.1 husort2 with h | h
      · exact absurd h hunotake
      · exact h
    have hvtake : v ∈ ((rows.filter (fun r => riskOf r = highLabel)).insertionSort
        (fun a b => scoreOf b ≤ scoreOf a)).take maxHigh := by
      rw [hres] at hv
      rcases List.mem_append.1 hv with h | h
      · have h2 := List.mem_filter.1 h
        have h3 : ¬ riskOf v = highLabel := by simpa using h2.2
        exact absurd hvh h3
      · exact h
    have hp : List.Pairwise (fun a b => scoreOf b ≤ scoreOf a)
        ((((rows.filter (fun r => riskOf r = highLabel)).insertionSort
            (fun a b => scoreOf b ≤ scoreOf a)).take maxHigh)
          ++ (((rows.filter (fun r => riskOf r = highLabel)).insertionSort
            (fun a b => scoreOf b ≤ scoreOf a)).drop maxHigh)) := by
      rw [List.take_append_drop]
      exact hsorted
    exact (List.pairwise_append.1 hp).2.2 v hvtake u hudrop

/-- Records for the risk-cap witness: id, risk label, composite score. -/
def c7rows : List (ℕ × String × ℚ) :=
  [(1, (highLabel, 30)), (2, ("Low", 10)), (3, (highLabel, 20)),
   (4, (highLabel, 10)), (5, ("Low", 99))]

theorem C7_risk_cap_witness :
    (2, (("Low" : String), (10 : ℚ))) ∈
        apply_constraint_risk 1 (fun r => r.2.1) (fun r => r.2.2) c7rows ∧
    ((apply_constraint_risk 1 (fun r : ℕ × String × ℚ => r.2.1) (fun r => r.2.2)
        c7rows).filter (fun r => r.2.1 = highLabel)).length = 1 :=
  ⟨(C7_risk_cap 1 (fun r => r.2.1) (fun r => r.2.2) c7rows (by decide)).1
      (2, (("Low" : String), (10 : ℚ))) (by decide) (by decide),
    (C7_risk_cap 1 (fun r => r.2.1) (fun r => r.2.2) c7rows (by decide)).2.2.1⟩

theorem foldl_min_le_init (t : List ℚ) : ∀ a : ℚ, t.foldl min a ≤ a := by
  induction t with
  | nil => intro a; exact le_refl a
  | cons b t ih =>
    intro a
    exact le_trans (ih (min a b)) (min_le_left a b)

theorem foldl_min_le_mem (t : List ℚ) : ∀ (a x : ℚ), x ∈ t → t.foldl min a ≤ x := by
  induction t with
  | nil => intro a x hx; cases hx
  | cons b t ih =>
    intro a x hx
    rcases List.mem_cons.1 hx with rfl | hx
    · exact le_trans (foldl_min_le_init t (min a x)) (min_le_right a x)
    · exact ih (min a b) x hx

theorem minOf_le {xs : List ℚ} {x : ℚ} (hx : x ∈ xs) : minOf xs ≤ x := by
  cases xs with
  | nil => cases hx
  | cons a t =>
    unfold minOf
    rcases List.mem_cons.1 hx with rfl | hx
    · exact foldl_min_le_init t x
    · exact foldl_min_le_mem t a x hx

theorem le_foldl_max_init (t : List ℚ) : ∀ a : ℚ, a ≤ t.foldl max a := by
  induction t with
  | nil => intro a; exact le_refl a
  | cons b t ih =>
    intro a
    exact le_trans (le_max_left a b) (ih (max a b))

theorem le_foldl_max_mem (t : List ℚ) : ∀ (a x : ℚ), x ∈ t → x ≤ t.foldl max a := by
  induction t with
  | nil => intro a x hx; cases hx
  | cons b t ih =>
    intro a x hx
    rcases List.mem_cons.1 hx with rfl | hx
    · exact le_trans (le_max_right a x) (le_foldl_max_init t (max a x))
    · exact ih (max a b) x hx

theorem le_maxOf {xs : List ℚ} {x : ℚ} (hx : x ∈ xs) : x ≤ maxOf xs := by
  cases xs with
  | nil => cases hx
  | cons a t =>
    unfold maxOf
    rcases List.mem_cons.1 hx with rfl | hx
    · exact le_foldl_max_init t x
    · exact le_foldl_max_mem t a x hx

theorem normalizeCol_bounds (xs : List ℚ) : ∀ v ∈ normalizeCol xs, 0 ≤ v ∧ v ≤ 1 := by
  intro v hv
  unfold normalizeCol at hv
  split at hv
  · rename_i hlt
    obtain ⟨x, hx, rfl⟩ := List.mem_map.1 hv
    have h1 : minOf xs ≤ x := minOf_le hx
    have h2 : x ≤ maxOf xs := le_maxOf hx
    have h3 : 0 < maxOf xs - minOf xs := by linarith
    constructor
    · apply div_nonneg <;> linarith
    · rw [div_le_one h3]
      linarith
  · obtain ⟨x, hx, rfl⟩ := List.mem_map.1 hv
    norm_num

theorem buildNCols_inv (df : VFrame) : ∀ (sp : List (String × ℚ)) (ncols : List (List ℚ × ℚ)),
    buildNCols df sp = some ncols →
    ncols.map (fun p => p.2) = sp.map (fun p => p.2) ∧
    ∀ q ∈ ncols, ∀ v ∈ q.1, 0 ≤ v ∧ v ≤ 1 := by
  intro sp
  induction sp with
  | nil =>
    intro ncols h
    simp only [buildNCols] at h
    obtain rfl := Option.some.inj h
    exact ⟨rfl, by intro q hq; cases hq⟩
  | cons p rest ih =>
    intro ncols h
    simp only [buildNCols] at h
    split at h
    · cases h
    · rename_i ns hns
      split at h
      · cases h
      · rename_i l hl
        obtain rfl := Option.some.inj h
        obtain ⟨ih1, ih2⟩ := ih l hl
        refine ⟨by simp [ih1], ?_⟩
        intro q hq
        rcases List.mem_cons.1 hq with rfl | hq
        · intro v hv
          exact normalizeCol_bounds ns v hv
        · exact ih2 q hq

theorem sum_map_div (l : List ℚ) (W : ℚ) : (l.map (fun w => w / W)).sum = l.sum / W := by
  induction l with
  | nil => simp
  | cons a t ih => simp [List.sum_cons, ih, add_div]

theorem nWeight_sum (l : List ℚ) (hne : l ≠ []) :
    (l.map (nWeight l.sum l.length)).sum = 1 := by
  have hk : (l.length : ℚ) ≠ 0 := by
    simp only [ne_eq, Nat.cast_eq_zero, List.length_eq_zero]
    exact hne
  by_cases hW : 0 < l.sum
  · have hmap : l.map (nWeight l.sum l.length) = l.map (fun w => w / l.sum) := by
      apply List.map_congr_left
      intro w _
      unfold nWeight
      rw [if_pos hW]
    rw [hmap, sum_map_div, div_self (ne_of_gt hW)]
  · have hmap : l.map (nWeight l.sum l.length) = l.map (fun _ => 1 / (l.length : ℚ)) := by
      apply List.map_congr_left
      intro w _
      unfold nWeight
      rw [if_neg hW]
    rw [hmap, List.map_const', List.sum_replicate, nsmul_eq_mul]
    field_simp

theorem getD_prop {P : ℚ → Prop} {l : List ℚ} {d : ℚ} (hl : ∀ v ∈ l, P v) (hd : P d) (j : ℕ) :
    P (l.getD j d) := by
  rcases Nat.lt_or_ge j l.length with h | h
  · rw [List.getD_eq_getElem _ _ h]
    exact hl _ (List.getElem_mem h)
  · rw [List.getD_eq_default _ _ h]
    exact hd

theorem compositeFor_bounds (ncols : List (List ℚ × ℚ)) (sp : List (String × ℚ)) (j : ℕ)
    (hsnd : ncols.map (fun p => p.2) = sp.map (fun p => p.2))
    (hbounds : ∀ q ∈ ncols, ∀ v ∈ q.1, 0 ≤ v ∧ v ≤ 1)
    (hw : ∀ p ∈ sp, 0 ≤ p.2) (hne : sp ≠ []) :
    0 ≤ compositeFor ncols ((sp.map (fun p => p.2)).sum) sp.length j ∧
    compositeFor ncols ((sp.map (fun p => p.2)).sum) sp.length j ≤ 100 := by
  have hw' : ∀ w ∈ sp.map (fun p => p.2), 0 ≤ w := by
    intro w hwm
    obtain ⟨p, hp, rfl⟩ := List.mem_map.1 hwm
    exact hw p hp
  have hnw : ∀ w ∈ sp.map (fun p => p.2),
      0 ≤ nWeight ((sp.map (fun p => p.2)).sum) sp.length w := by
    intro w hwm
    unfold nWeight
    split
    · rename_i hpos
      exact div_nonneg (hw' w hwm) (le_of_lt hpos)
    · positivity
  have hsndmem : ∀ q ∈ ncols, q.2 ∈ sp.map (fun p => p.2) := by
    intro q hq
    rw [← hsnd]
    exact List.mem_map.2 ⟨q, hq, rfl⟩
  have hterm : ∀ q ∈ ncols,
      0 ≤ q.1.getD j 0 * nWeight ((sp.map (fun p => p.2)).sum) sp.length q.2 ∧
      q.1.getD j 0 * nWeight ((sp.map (fun p => p.2)).sum) sp.length q.2
        ≤ nWeight ((sp.map (fun p => p.2)).sum) sp.length q.2 := by
    intro q hq
    have hg : 0 ≤ q.1.getD j 0 ∧ q.1.getD j 0 ≤ 1 :=
      getD_prop (hbounds q hq) (by norm_num) j
    have hnwq := hnw q.2 (hsndmem q hq)
    constructor
    · exact mul_nonneg hg.1 hnwq
    · exact mul_le_of_le_one_left hnwq hg.2
  have hsum_le : (ncols.map (fun q =>
      q.1.getD j 0 * nWeight ((sp.map (fun p => p.2)).sum) sp.length q.2)).sum
      ≤ (ncols.map (fun q =>
          nWeight ((sp.map (fun p => p.2)).sum) sp.length q.2)).sum := by
    apply List.sum_le_sum
    intro q hq
    exact (hterm q hq).2
  have hsum_nw : (ncols.map (fun q =>
      nWeight ((sp.map (fun p => p.2)).sum) sp.length q.2)).sum = 1 := by
    have h1 : ncols.map (fun q =>
        nWeight ((sp.map (fun p => p.2)).sum) sp.length q.2)
        = (ncols.map (fun q => q.2)).map
            (nWeight ((sp.map (fun p => p.2)).sum) sp.length) := by
      rw [List.map_map]
      rfl
    rw [h1, hsnd]
    have hlen : sp.length = (sp.map (fun p => p.2)).length := by simp
    have hnemap : sp.map (fun p => p.2) ≠ [] := by
      simpa using hne
    rw [hlen]
    exact nWeight_sum _ hnemap
  have hsum_ge : 0 ≤ (ncols.map (fun q =>
      q.1.getD j 0 * nWeight ((sp.map (fun p => p.2)).sum) sp.length q.2)).sum := by
    apply List.sum_nonneg
    intro x hx
    obtain ⟨q, hq, rfl⟩ := List.mem_map.1 hx
    exact (hterm q hq).1
  unfold compositeFor
  constructor
  · positivity
  · nlinarith [hsum_le, hsum_nw, hsum_ge]

theorem rowGet_cons (p : String × Value) (r : VRow) (c : String) :
    rowGet (p :: r) c = if p.1 = c then p.2 else rowGet r c := rfl

theorem zip_add_head_get (c : String) : ∀ (rows : List VRow) (vals : List Value),
    vals.length = rows.length →
    (List.zipWith (fun r v => (c, v) :: r) rows vals).map (fun r => rowGet r c) = vals := by
  intro rows
  induction rows with
  | nil =>
    intro vals h
    rw [List.length_nil, List.length_eq_zero] at h
    subst h
    rfl
  | cons r rest ih =>
    intro vals h
    cases vals with
    | nil => cases h
    | cons v vs =>
      simp only [List.zipWith_cons_cons, List.map_cons]
      have hhead : rowGet ((c, v) :: r) c = v := by
        rw [rowGet_cons, if_pos rfl]
      rw [hhead, ih vs (by simpa using h)]

theorem zip_add_head_get_ne (c c' : String) (hne : c' ≠ c) :
    ∀ (rows : List VRow) (vals : List Value), vals.length = rows.length →
    (List.zipWith (fun r v => (c', v) :: r) rows vals).map (fun r => rowGet r c)
      = rows.map (fun r => rowGet r c) := by
  intro rows
  induction rows with
  | nil => intro vals _; rfl
  | cons r rest ih =>
    intro vals h
    cases vals with
    | nil => cases h
    | cons v vs =>
      simp only [List.zipWith_cons_cons, List.map_cons]
      have hhead : rowGet ((c', v) :: r) c = rowGet r c := by
        rw [rowGet_cons, if_neg hne]
      rw [hhead, ih vs (by simpa using h)]

theorem addVCol_getVCol_self (df : VFrame) (c : String) (vals : List Value)
    (hlen : vals.length = df.rows.length) :
    (addVCol df c vals).getVCol c = vals := by
  unfold addVCol VFrame.getVCol
  exact zip_add_head_get c df.rows vals hlen

/-- C2 (amended): on the weighted-scoring path — nonnegative weights, at
least one weight attribute present in the schema, and the call returning
normally — every produced composite value is numeric and lies in [0,100].
The fallback path taken when no weight attribute is present copies the raw
default attribute instead and is NOT bounded (see the counterexample). -/
theorem C2_composite_bounds (df : VFrame) (weights : List (String × ℚ)) (out : VFrame)
    (hw : ∀ p ∈ weights, 0 ≤ p.2)
    (hsp : scoringPairs df.cols weights ≠ [])
    (hout : score_projects df weights = some out) :
    ∀ v ∈ out.getVCol compositeCol, valueWithin100 v := by
  unfold score_projects at hout
  by_cases hemp : df.rows.isEmpty = true
  · rw [if_pos hemp] at hout
    obtain rfl := Option.some.inj hout
    intro v hv
    unfold VFrame.getVCol at hv
    rw [List.isEmpty_iff.1 hemp] at hv
    cases hv
  · rw [if_neg hemp] at hout
    have hok : ¬ ((scoringPairs df.cols weights).isEmpty = true) := by
      simp only [List.isEmpty_iff]
      exact hsp
    rw [if_neg hok] at hout
    split at hout
    · cases hout
    · rename_i ncols hncols
      obtain rfl := Option.some.inj hout
      intro v hv
      rw [addVCol_getVCol_self _ _ _ (by simp)] at hv
      obtain ⟨j, hj, rfl⟩ := List.mem_map.1 hv
      obtain ⟨hsnd, hbounds⟩ := buildNCols_inv df _ _ hncols
      have hw' : ∀ p ∈ scoringPairs df.cols weights, 0 ≤ p.2 := by
        intro p hp
        exact hw p (List.mem_of_mem_filter hp)
      exact compositeFor_bounds ncols (scoringPairs df.cols weights) j hsnd hbounds hw' hsp

/-- Frame whose raw default attribute value 150 is outside [0,100]. -/
def c2df : VFrame := ⟨[overallCol], [[(overallCol, Value.num 150)]]⟩

/-- C2 (counterexample): when no weight attribute exists in the schema the
fallback assigns the raw `Overall_ESG_Score` values as the composite
column; on a record whose raw value is 150 the produced composite is 150,
outside [0,100]. -/
theorem C2_counterexample :
    (score_projects c2df [(("Missing_KPI" : String), (1 : ℚ))]).map
        (fun f => f.getVCol compositeCol) = some [Value.num 150] ∧
    ¬ valueWithin100 (Value.num 150) := by
  constructor
  · decide
  · unfold valueWithin100
    norm_num

/-- One-record frame for the C2 witness. -/
def w2df : VFrame := ⟨[overallCol], [[(overallCol, Value.num 50)]]⟩

/-- Output frame `score_projects` produces on `w2df` with weight map
`{Overall_ESG_Score: 1}`: constant column normalizes to 1, composite 100. -/
def w2out : VFrame :=
  ⟨[overallCol, compositeCol], [[(compositeCol, Value.num 100), (overallCol, Value.num 50)]]⟩

theorem C2_composite_bounds_witness : valueWithin100 (Value.num 100) :=
  C2_composite_bounds w2df [(overallCol, 1)] w2out
    (by intro p hp; simp only [List.mem_singleton] at hp; subst hp; norm_num)
    (by decide)
    (by
      have hsp2 : scoringPairs w2df.cols [(overallCol, 1)] = [(overallCol, 1)] := by decide
      have hbn : buildNCols w2df [(overallCol, 1)] = some [([1], 1)] := by decide
      simp only [score_projects]
      rw [if_neg (by decide : ¬ (w2df.rows.isEmpty = true)), hsp2,
        if_neg (by decide : ¬ (([((overallCol : String), (1 : ℚ))]).isEmpty = true)), hbn]
      norm_num [addVCol, w2df, w2out, compositeFor, nWeight, List.getD,
        List.sum_cons, List.sum_nil, List.zipWith_cons_cons,
        show List.range 1 = [0] from rfl])
    (Value.num 100) (by decide)

theorem addVCol_getVCol_ne (df : VFrame) (c c' : String) (vals : List Value)
    (hne : c' ≠ c) (hlen : vals.length = df.rows.length) :
    (addVCol df c' vals).getVCol c = df.getVCol c := by
  unfold addVCol VFrame.getVCol
  exact zip_add_head_get_ne c c' hne df.rows vals hlen

theorem score_projects_preserves_cols (df : VFrame) (w : List (String × ℚ)) (out : VFrame)
    (c : String) (hc : c ≠ compositeCol) (hout : score_projects df w = some out) :
    out.getVCol c = df.getVCol c := by
  unfold score_projects at hout
  by_cases hemp : df.rows.isEmpty = true
  · rw [if_pos hemp] at hout
    obtain rfl := Option.some.inj hout
    rfl
  · rw [if_neg hemp] at hout
    by_cases hsp : (scoringPairs df.cols w).isEmpty = true
    · rw [if_pos hsp] at hout
      obtain rfl := Option.some.inj hout
      apply addVCol_getVCol_ne _ _ _ _ (Ne.symm hc)
      split
      · simp [VFrame.getVCol]
      · simp
    · rw [if_neg hsp] at hout
      split at hout
      · cases hout
      · obtain rfl := Option.some.inj hout
        apply addVCol_getVCol_ne _ _ _ _ (Ne.symm hc)
        simp

/-- C3 (amended): for ANY ascending argsort the numpy backend may return
(above the introsort small-array cutoff only `IsAscArgsort` — permutation
of the index range, ascending in score — is guaranteed), the record order
`rank_projects` produces, its wholesale reversal, is a permutation of the
records sorted weakly descending by composite score; ranks are 1-based
(`range(1, n+1)`); and `score_projects` itself never reorders records
(every original column reads back unchanged, in row order).  Tie order,
however, is NOT original catalog order: on frames below the cutoff, where
numpy's sort is the stable insertion sort modelled by `rankPerm`, tied
records come out in REVERSE original order (the reversal flips the stable
ascending order of ties), and above the cutoff it is unspecified. -/
theorem C3_rank_order (scores : List ℚ) (perm : List ℕ) (df : VFrame) (w : List (String × ℚ))
    (out : VFrame) (c : String) (hperm : IsAscArgsort scores perm)
    (hc : c ≠ compositeCol) (hout : score_projects df w = some out) :
    perm.reverse.Perm (List.range scores.length) ∧
    perm.reverse.Pairwise (fun i j => scores.getD j 0 ≤ scores.getD i 0) ∧
    (scores.length < 16 →
      (rankPerm scores).Pairwise
        (fun i j => scores.getD j 0 < scores.getD i 0 ∨
          (scores.getD i 0 = scores.getD j 0 ∧ j < i))) ∧
    ranksList scores.length = List.range' 1 scores.length ∧
    out.getVCol c = df.getVCol c := by
  refine ⟨(List.reverse_perm perm).trans hperm.1, List.pairwise_reverse.2 hperm.2,
    fun _ => argsortDesc_pairwise scores, ?_,
    score_projects_preserves_cols df w out c hc hout⟩
  unfold ranksList
  rw [List.range'_eq_map_range]
  apply List.map_congr_left
  intro i _
  exact Nat.add_comm i 1

/-- C3 (counterexample): on two records with tied composite score 5,
`rank_projects` puts the SECOND record first (pandas reverses the stable
ascending argsort [0, 1] to [1, 0]), while the claim's stable descending
sort with ties in original catalog order would put the first record
first. -/
theorem C3_counterexample :
    rankPerm [5, 5] = [1, 0] ∧
    specStableDescPerm [5, 5] = [0, 1] ∧
    ([1, 0] : List ℕ) ≠ [0, 1] := by
  refine ⟨by decide, by decide, by decide⟩

/-- Empty catalog frame for the C3 witness (the scorer returns it as is). -/
def c3df : VFrame := ⟨[overallCol], []⟩

theorem C3_rank_order_witness :
    IsAscArgsort [5, 5] [0, 1] ∧
    ([5, 5] : List ℚ).length < 16 ∧
    ([0, 1] : List ℕ).reverse.Perm (List.range ([5, 5] : List ℚ).length) ∧
    ([0, 1] : List ℕ).reverse.Pairwise
      (fun i j => ([5, 5] : List ℚ).getD j 0 ≤ ([5, 5] : List ℚ).getD i 0) ∧
    (rankPerm [5, 5]).Pairwise
      (fun i j => ([5, 5] : List ℚ).getD j 0 < ([5, 5] : List ℚ).getD i 0 ∨
        (([5, 5] : List ℚ).getD i 0 = ([5, 5] : List ℚ).getD j 0 ∧ j < i)) ∧
    ranksList ([5, 5] : List ℚ).length = List.range' 1 ([5, 5] : List ℚ).length ∧
    c3df.getVCol overallCol = c3df.getVCol overallCol := by
  have hperm : IsAscArgsort [5, 5] [0, 1] := ⟨by decide, by decide⟩
  have hlen : ([5, 5] : List ℚ).length < 16 := by decide
  have h := C3_rank_order [5, 5] [0, 1] c3df [] c3df overallCol hperm (by decide) (by decide)
  exact ⟨hperm, hlen, h.1, h.2.1, h.2.2.1 hlen, h.2.2.2.1, h.2.2.2.2⟩

/-- C8 (amended): on the LP-success branch (including its internal
threshold-empty greedy rescue) the stored diagnostics are exactly the
aggregates of the selection just returned — total cost, total score,
budget utilization = total cost / budget, selected count; but on the
solver-failure and exception branches `_greedy_fallback`'s result is
returned while the stored diagnostics are left untouched (stale). -/
theorem C8_diagnostics (x : List ℚ) (st : Option Diagnostics) (df : NumFrame)
    (budget : ℚ) (sc cc : String) (m : String)
    (hne : df.rows ≠ []) (hcols : sc ∈ df.cols ∧ cc ∈ df.cols) :
    (optRun (.res x true) st df budget sc cc).2
      = some ⟨((optRun (.res x true) st df budget sc cc).1.getCol cc).sum,
              ((optRun (.res x true) st df budget sc cc).1.getCol sc).sum,
              ((optRun (.res x true) st df budget sc cc).1.getCol cc).sum / budget,
              (optRun (.res x true) st df budget sc cc).1.rows.length⟩ ∧
    (optRun (.res x false) st df budget sc cc).2 = st ∧
    (optRun (.raise m) st df budget sc cc).2 = st := by
  have h1 : df.rows.isEmpty = false := by simp [List.isEmpty_iff, hne]
  refine ⟨?_, ?_, ?_⟩ <;> (unfold optRun optimize_projects; rw [h1]; simp [hcols])

theorem C8_diagnostics_witness :
    (optRun (.res [1] true) none
        ⟨[compositeCol, costColDefault], [[(compositeCol, 7), (costColDefault, 5)]]⟩
        10 compositeCol costColDefault).2
      = some ⟨((optRun (.res [1] true) none
            ⟨[compositeCol, costColDefault], [[(compositeCol, 7), (costColDefault, 5)]]⟩
            10 compositeCol costColDefault).1.getCol costColDefault).sum,
          ((optRun (.res [1] true) none
            ⟨[compositeCol, costColDefault], [[(compositeCol, 7), (costColDefault, 5)]]⟩
            10 compositeCol costColDefault).1.getCol compositeCol).sum,
          ((optRun (.res [1] true) none
            ⟨[compositeCol, costColDefault], [[(compositeCol, 7), (costColDefault, 5)]]⟩
            10 compositeCol costColDefault).1.getCol costColDefault).sum / 10,
          (optRun (.res [1] true) none
            ⟨[compositeCol, costColDefault], [[(compositeCol, 7), (costColDefault, 5)]]⟩
            10 compositeCol costColDefault).1.rows.length⟩ ∧
    (optRun (.res [1] false) none
        ⟨[compositeCol, costColDefault], [[(compositeCol, 7), (costColDefault, 5)]]⟩
        10 compositeCol costColDefault).2 = none ∧
    (optRun (.raise ("err")) none
        ⟨[compositeCol, costColDefault], [[(compositeCol, 7), (costColDefault, 5)]]⟩
        10 compositeCol costColDefault).2 = none :=
  C8_diagnostics [1] none _ 10 compositeCol costColDefault ("err") (by decide) (by decide)

/-- Frame for the C8 counterexample. -/
def c8df : NumFrame := ⟨[compositeCol, costColDefault], [[(compositeCol, 7), (costColDefault, 5)]]⟩

/-- Stale diagnostics left from an earlier run. -/
def c8stale : Diagnostics := ⟨999, 999, 999, 99⟩

/-- C8 (counterexample): a call that takes the solver-failure fallback
returns a non-empty selection of total cost 5, yet the stored diagnostics
remain the earlier run's record (total cost 999): `_greedy_fallback` never
writes `optimization_results`, so `get_optimization_summary` does not
match the selection just returned. -/
theorem C8_counterexample :
    (optRun (.res [1] false) (some c8stale) c8df 10 compositeCol costColDefault).2
      = some c8stale ∧
    ((optRun (.res [1] false) (some c8stale) c8df 10 compositeCol
        costColDefault).1.getCol costColDefault).sum = 5 ∧
    (optRun (.res [1] false) (some c8stale) c8df 10 compositeCol costColDefault).1.rows
      ≠ [] ∧
    c8stale.total_cost ≠ 5 := by
  have hrun : optRun (.res [1] false) (some c8stale) c8df 10 compositeCol costColDefault
      = (greedy_fallback c8df 10 compositeCol costColDefault, some c8stale) := by
    unfold optRun optimize_projects
    norm_num [c8df]
  refine ⟨by rw [hrun], ?_, ?_, by norm_num [c8stale]⟩
  · rw [hrun]
    norm_num [greedy_fallback, c8df, NumFrame.getCol, addNum, rowGetN, fallbackEff,
      List.insertionSort, List.orderedInsert, greedyAdmit, colNe1, colNe2, colNe3, colNe4,
      colNe5, colNe6, colNe7]
  · rw [hrun]
    norm_num [greedy_fallback, c8df, NumFrame.getCol, addNum, rowGetN, fallbackEff,
      List.insertionSort, List.orderedInsert, greedyAdmit, colNe1, colNe2, colNe3, colNe4,
      colNe5, colNe6, colNe7]

theorem greedyAdmit_none (cc : String) (rows : List NumRow) :
    ∀ b : ℚ, (∀ r ∈ rows, 0 < rowGetN r cc) → b ≤ 0 → greedyAdmit cc rows b = [] := by
  induction rows with
  | nil => intro b _ _; rfl
  | cons r rest ih =>
    intro b hpos hb
    have h1 : ¬ rowGetN r cc ≤ b := by
      have := hpos r (List.mem_cons_self r rest)
      linarith
    unfold greedyAdmit
    rw [if_neg h1]
    exact ih b (fun q hq => hpos q (List.mem_cons_of_mem _ hq)) hb

theorem greedyAdmit_all (cc : String) (rows : List NumRow) :
    ∀ b : ℚ, (∀ r ∈ rows, 0 ≤ rowGetN r cc) →
    (rows.map (fun r => rowGetN r cc)).sum ≤ b → greedyAdmit cc rows b = rows := by
  induction rows with
  | nil => intro b _ _; rfl
  | cons r rest ih =>
    intro b hpos hsum
    simp only [List.map_cons, List.sum_cons] at hsum
    have hrest : 0 ≤ (rest.map (fun q => rowGetN q cc)).sum := by
      apply List.sum_nonneg
      intro z hz
      obtain ⟨q, hq, rfl⟩ := List.mem_map.1 hz
      exact hpos q (List.mem_cons_of_mem _ hq)
    have h1 : rowGetN r cc ≤ b := by linarith
    unfold greedyAdmit
    rw [if_pos h1,
      ih (b - rowGetN r cc) (fun q hq => hpos q (List.mem_cons_of_mem _ hq)) (by linarith)]

theorem fallback_sorted_mem (df : NumFrame) (sc cc : String) (r : NumRow)
    (hr : r ∈ ((df.rows.map (fun q => addNum q effCol
        (fallbackEff (rowGetN q sc) (rowGetN q cc)))).insertionSort effRel).reverse) :
    ∃ orig ∈ df.rows, r = addNum orig effCol (fallbackEff (rowGetN orig sc) (rowGetN orig cc)) := by
  rw [List.mem_reverse] at hr
  have h2 := (List.perm_insertionSort effRel _).subset hr
  obtain ⟨orig, horig, rfl⟩ := List.mem_map.1 h2
  exact ⟨orig, horig, rfl⟩

theorem greedy_fallback_empty (df : NumFrame) (b : ℚ) (sc cc : String)
    (hcost : ∀ c ∈ df.getCol cc, 0 < c) (hb : b ≤ 0) (hcc : cc ≠ effCol) :
    greedy_fallback df b sc cc = ⟨[], []⟩ := by
  simp only [greedy_fallback]
  have hadm : greedyAdmit cc ((df.rows.map (fun q => addNum q effCol
      (fallbackEff (rowGetN q sc) (rowGetN q cc)))).insertionSort effRel).reverse b = [] := by
    apply greedyAdmit_none
    · intro r hr
      obtain ⟨orig, horig, rfl⟩ := fallback_sorted_mem df sc cc r hr
      rw [rowGetN_addNum, if_neg (Ne.symm hcc)]
      exact hcost _ (List.mem_map.2 ⟨orig, horig, rfl⟩)
    · exact hb
  rw [hadm]
  simp

theorem fallback_sorted_col_sum (df : NumFrame) (sc cc c : String) (hce : c ≠ effCol) :
    ((((df.rows.map (fun q => addNum q effCol
        (fallbackEff (rowGetN q sc) (rowGetN q cc)))).insertionSort effRel).reverse).map
      (fun r => rowGetN r c)).sum = (df.getCol c).sum := by
  have hperm : ((((df.rows.map (fun q => addNum q effCol
      (fallbackEff (rowGetN q sc) (rowGetN q cc)))).insertionSort effRel).reverse).map
      (fun r => rowGetN r c)).Perm
      (((df.rows.map (fun q => addNum q effCol
        (fallbackEff (rowGetN q sc) (rowGetN q cc))))).map (fun r => rowGetN r c)) := by
    apply List.Perm.map
    exact (List.reverse_perm _).trans (List.perm_insertionSort effRel _)
  rw [hperm.sum_eq]
  unfold NumFrame.getCol
  rw [List.map_map]
  apply congrArg
  apply List.map_congr_left
  intro q _
  show rowGetN (addNum q effCol (fallbackEff (rowGetN q sc) (rowGetN q cc))) c = rowGetN q c
  rw [rowGetN_addNum, if_neg (Ne.symm hce)]

theorem greedy_fallback_sum_all (df : NumFrame) (b : ℚ) (sc cc : String)
    (hcost : ∀ c ∈ df.getCol cc, 0 ≤ c) (htot : (df.getCol cc).sum ≤ b)
    (hce : cc ≠ effCol) (hse : sc ≠ effCol) (hsw : sc ≠ weightCol)
    (hne : df.rows ≠ []) :
    ((greedy_fallback df b sc cc).getCol sc).sum = (df.getCol sc).sum := by
  simp only [greedy_fallback]
  have hall : greedyAdmit cc ((df.rows.map (fun q => addNum q effCol
      (fallbackEff (rowGetN q sc) (rowGetN q cc)))).insertionSort effRel).reverse b
      = ((df.rows.map (fun q => addNum q effCol
        (fallbackEff (rowGetN q sc) (rowGetN q cc)))).insertionSort effRel).reverse := by
    apply greedyAdmit_all
    · intro r hr
      obtain ⟨orig, horig, rfl⟩ := fallback_sorted_mem df sc cc r hr
      rw [rowGetN_addNum, if_neg (Ne.symm hce)]
      exact hcost _ (List.mem_map.2 ⟨orig, horig, rfl⟩)
    · rw [fallback_sorted_col_sum df sc cc cc hce]
      exact htot
  rw [hall]
  have hlen : (((df.rows.map (fun q => addNum q effCol
      (fallbackEff (rowGetN q sc) (rowGetN q cc)))).insertionSort effRel).reverse).isEmpty
      = false := by
    rw [List.isEmpty_eq_false, ne_eq, List.reverse_eq_nil_iff]
    intro hcon
    have hp := List.perm_insertionSort effRel (df.rows.map (fun q => addNum q effCol
      (fallbackEff (rowGetN q sc) (rowGetN q cc))))
    rw [hcon] at hp
    have h0 := hp.length_eq
    simp only [List.length_nil, List.length_map] at h0
    exact hne (List.length_eq_zero.1 h0.symm)
  rw [hlen]
  simp only [Bool.false_eq_true, if_false, NumFrame.getCol]
  rw [List.map_map]
  have hstep : (((df.rows.map (fun q => addNum q effCol
      (fallbackEff (rowGetN q sc) (rowGetN q cc)))).insertionSort effRel).reverse).map
        ((fun r => rowGetN r sc) ∘ (fun r => addNum r weightCol 1))
      = (((df.rows.map (fun q => addNum q effCol
        (fallbackEff (rowGetN q sc) (rowGetN q cc)))).insertionSort effRel).reverse).map
        (fun r => rowGetN r sc) := by
    apply List.map_congr_left
    intro r _
    show rowGetN (addNum r weightCol 1) sc = rowGetN r sc
    rw [rowGetN_addNum, if_neg (Ne.symm hsw)]
  rw [hstep, fallback_sorted_col_sum df sc cc sc hse]
  rfl

theorem zipWith_mul_nonneg (c : List ℚ) : ∀ x : List ℚ,
    (∀ q ∈ c, 0 ≤ q) → (∀ v ∈ x, 0 ≤ v) →
    0 ≤ (List.zipWith (fun a b => a * b) c x).sum := by
  induction c with
  | nil => intro x _ _; simp
  | cons a t ih =>
    intro x hc hx
    cases x with
    | nil => simp
    | cons w ws =>
      simp only [List.zipWith_cons_cons, List.sum_cons]
      have h1 : 0 ≤ a * w :=
        mul_nonneg (hc a (List.mem_cons_self _ _)) (hx w (List.mem_cons_self _ _))
      have h2 := ih ws (fun q hq => hc q (List.mem_cons_of_mem _ hq))
        (fun v hv => hx v (List.mem_cons_of_mem _ hv))
      linarith

theorem zipWith_mul_eq_zero (c : List ℚ) : ∀ x : List ℚ, c.length = x.length →
    (∀ q ∈ c, 0 < q) → (∀ v ∈ x, 0 ≤ v) →
    (List.zipWith (fun a b => a * b) c x).sum ≤ 0 → ∀ v ∈ x, v = 0 := by
  induction c with
  | nil =>
    intro x hlen _ _ _ v hv
    rw [List.length_nil] at hlen
    rw [List.length_eq_zero.1 hlen.symm] at hv
    cases hv
  | cons a t ih =>
    intro x hlen hc hx hsum v hv
    cases x with
    | nil => cases hv
    | cons w ws =>
      simp only [List.zipWith_cons_cons, List.sum_cons] at hsum
      have hrest : 0 ≤ (List.zipWith (fun a b => a * b) t ws).sum :=
        zipWith_mul_nonneg t ws (fun q hq => le_of_lt (hc q (List.mem_cons_of_mem _ hq)))
          (fun z hz => hx z (List.mem_cons_of_mem _ hz))
      have haw : 0 ≤ a * w :=
        mul_nonneg (le_of_lt (hc a (List.mem_cons_self _ _))) (hx w (List.mem_cons_self _ _))
      have haw0 : a * w = 0 := by linarith
      have hw0 : w = 0 := by
        rcases mul_eq_zero.1 haw0 with h | h
        · exact absurd h (ne_of_gt (hc a (List.mem_cons_self _ _)))
        · exact h
      rcases List.mem_cons.1 hv with rfl | hv
      · exact hw0
      · exact ih ws (by simpa using hlen) (fun q hq => hc q (List.mem_cons_of_mem _ hq))
          (fun z hz => hx z (List.mem_cons_of_mem _ hz)) (by linarith) v hv

theorem dotL_le_sum (c : List ℚ) : ∀ y : List ℚ,
    (∀ q ∈ c, 0 ≤ q) → (∀ v ∈ y, v ≤ 1) → y.length = c.length → dotL c y ≤ c.sum := by
  induction c with
  | nil => intro y _ _ _; simp [dotL]
  | cons a t ih =>
    intro y hc hy hlen
    cases y with
    | nil => cases hlen
    | cons v vs =>
      simp only [dotL, List.zipWith_cons_cons, List.sum_cons]
      have h1 : a * v ≤ a :=
        mul_le_of_le_one_right (hc a (List.mem_cons_self _ _)) (hy v (List.mem_cons_self _ _))
      have h2 := ih vs (fun q hq => hc q (List.mem_cons_of_mem _ hq))
        (fun z hz => hy z (List.mem_cons_of_mem _ hz)) (by simpa using hlen)
      unfold dotL at h2
      linarith

theorem dotL_set (s : List ℚ) : ∀ (x : List ℚ) (i : ℕ) (v : ℚ),
    i < x.length → x.length = s.length →
    dotL s (x.set i v) = dotL s x + s.getD i 0 * (v - x.getD i 0) := by
  induction s with
  | nil =>
    intro x i v hi hlen
    rw [hlen] at hi
    cases hi
  | cons b ss ih =>
    intro x i v hi hlen
    cases x with
    | nil => cases hi
    | cons a xs =>
      cases i with
      | zero =>
        simp only [List.set_cons_zero, dotL, List.zipWith_cons_cons, List.sum_cons,
          List.getD_cons_zero]
        ring
      | succ j =>
        simp only [List.set_cons_succ, dotL, List.zipWith_cons_cons, List.sum_cons,
          List.getD_cons_succ]
        have h2 := ih xs j v (by simpa using hi) (by simpa using hlen)
        unfold dotL at h2
        linarith

theorem lp_threshold_of_pos (costs scores : List ℚ) (b : ℚ) (x : List ℚ)
    (hopt : lpOptimal costs scores b x)
    (hc : ∀ q ∈ costs, 0 ≤ q) (htot : costs.sum ≤ b)
    (hss : scores.length = costs.length)
    (i : ℕ) (hi : i < x.length) (hs : 0 < scores.getD i 0) :
    x.getD i 0 = 1 := by
  obtain ⟨⟨hlen, hbox, _⟩, hmax⟩ := hopt
  have hylen : (x.set i 1).length = costs.length := by simpa using hlen
  have hybox : ∀ v ∈ x.set i 1, 0 ≤ v ∧ v ≤ 1 := by
    intro v hv
    rcases List.mem_or_eq_of_mem_set hv with h | rfl
    · exact hbox v h
    · norm_num
  have hycost : dotL costs (x.set i 1) ≤ b :=
    le_trans (dotL_le_sum costs _ hc (fun v hv => (hybox v hv).2) hylen) htot
  have h1 := hmax _ ⟨hylen, hybox, hycost⟩
  have hset := dotL_set scores x i 1 hi (by rw [hlen, hss])
  rw [hset] at h1
  have h2 : scores.getD i 0 * (1 - x.getD i 0) ≤ 0 := by linarith
  have h3 : 1 - x.getD i 0 ≤ 0 := by
    by_contra hcon
    push_neg at hcon
    nlinarith
  have h4 : x.getD i 0 ≤ 1 := by
    have := hbox (x.getD i 0) (by
      rw [List.getD_eq_getElem _ _ hi]
      exact List.getElem_mem hi)
    exact this.2
  linarith

theorem selectRows_sum (c : String) (hc : c ≠ weightCol) :
    ∀ (rows : List NumRow) (x : List ℚ) (mask : List Bool),
    x.length = rows.length → mask.length = rows.length →
    (((rows.zip (x.zip mask)).filter (fun p => p.2.2)).map
        (fun p => rowGetN (addNum p.1 weightCol p.2.1) c)).sum
      = maskedSum (rows.map (fun r => rowGetN r c)) mask := by
  intro rows
  induction rows with
  | nil =>
    intro x mask _ _
    simp [maskedSum]
  | cons r rest ih =>
    intro x mask hx hm
    cases x with
    | nil => cases hx
    | cons xv xs =>
      cases mask with
      | nil => cases hm
      | cons bb bs =>
        have htail := ih xs bs (by simpa using hx) (by simpa using hm)
        simp only [List.zip_cons_cons, List.map_cons, maskedSum, List.zipWith_cons_cons,
          List.sum_cons]
        cases bb with
        | true =>
          rw [List.filter_cons_of_pos (by simp)]
          simp only [List.map_cons, List.sum_cons]
          rw [show rowGetN (addNum r weightCol xv) c = rowGetN r c by
            rw [rowGetN_addNum, if_neg (Ne.symm hc)]]
          unfold maskedSum at htail
          rw [htail]
          simp
        | false =>
          rw [List.filter_cons_of_neg (by simp)]
          unfold maskedSum at htail
          rw [htail]
          simp

theorem selectRows_rows_nil (df : NumFrame) (x : List ℚ) (mask : List Bool)
    (hmask : ∀ bb ∈ mask, bb = false) : (selectRows df x mask).rows = [] := by
  unfold selectRows
  simp only []
  rw [List.map_eq_nil_iff, List.filter_eq_nil_iff]
  intro p hp
  obtain ⟨p1, p2⟩ := p
  obtain ⟨p21, p22⟩ := p2
  have h1 := (List.of_mem_zip hp).2
  have h2 := (List.of_mem_zip h1).2
  have := hmask p22 h2
  simp [this]

theorem optRun_fst_raise (m : String) (st : Option Diagnostics) (df : NumFrame)
    (budget : ℚ) (sc cc : String) (hne : df.rows ≠ [])
    (hcols : sc ∈ df.cols ∧ cc ∈ df.cols) :
    (optRun (.raise m) st df budget sc cc).1 = greedy_fallback df budget sc cc := by
  have h1 : df.rows.isEmpty = false := by simp [List.isEmpty_iff, hne]
  unfold optRun optimize_projects
  rw [h1]
  simp [hcols]

theorem optRun_fst_fail (x : List ℚ) (st : Option Diagnostics) (df : NumFrame)
    (budget : ℚ) (sc cc : String) (hne : df.rows ≠ [])
    (hcols : sc ∈ df.cols ∧ cc ∈ df.cols) :
    (optRun (.res x false) st df budget sc cc).1 = greedy_fallback df budget sc cc := by
  have h1 : df.rows.isEmpty = false := by simp [List.isEmpty_iff, hne]
  unfold optRun optimize_projects
  rw [h1]
  simp [hcols]

theorem optRun_fst_success (x : List ℚ) (st : Option Diagnostics) (df : NumFrame)
    (budget : ℚ) (sc cc : String) (hne : df.rows ≠ [])
    (hcols : sc ∈ df.cols ∧ cc ∈ df.cols) :
    (optRun (.res x true) st df budget sc cc).1
      = selectRows df x (if (thresholdMask x).any id then thresholdMask x
          else greedySelection (df.getCol cc) (df.getCol sc) budget) := by
  have h1 : df.rows.isEmpty = false := by simp [List.isEmpty_iff, hne]
  unfold optRun optimize_projects
  rw [h1]
  simp [hcols]

theorem getCol_length (df : NumFrame) (c : String) : (df.getCol c).length = df.rows.length := by
  unfold NumFrame.getCol
  exact List.length_map _ _

theorem selectRows_getCol_sum (df : NumFrame) (x : List ℚ) (mask : List Bool) (c : String)
    (hc : c ≠ weightCol) (hx : x.length = df.rows.length) (hm : mask.length = df.rows.length) :
    ((selectRows df x mask).getCol c).sum = maskedSum (df.getCol c) mask := by
  unfold selectRows NumFrame.getCol
  simp only [List.map_map]
  exact selectRows_sum c hc df.rows x mask hx hm

/-- C5 (amended): with budget 0, `optimize_projects` returns an empty
selection provided every record has strictly positive cost (a zero-cost
record is selected even at budget 0 — see the counterexample); and with
budget at least the total subset cost (costs nonnegative, scores
nonnegative, the solver outcome consistent: a successful solve returns an
LP optimum), the returned selection's aggregate score is at least that of
every alternative selection, i.e. the maximum attainable. -/
theorem C5_budget_extremes (lin : LinprogOutcome) (st : Option Diagnostics) (df : NumFrame)
    (budget : ℚ) (sc cc : String) (mask : List Bool)
    (hne : df.rows ≠ []) (hcols : sc ∈ df.cols ∧ cc ∈ df.cols)
    (hsw : sc ≠ weightCol) (hse : sc ≠ effCol) (hce : cc ≠ effCol)
    (hlin : ∀ x, lin = .res x true → lpOptimal (df.getCol cc) (df.getCol sc) budget x) :
    (budget = 0 → (∀ c ∈ df.getCol cc, 0 < c) →
      (optRun lin st df budget sc cc).1.rows = []) ∧
    ((∀ c ∈ df.getCol cc, 0 ≤ c) → (∀ s ∈ df.getCol sc, 0 ≤ s) →
      (df.getCol cc).sum ≤ budget →
      maskedSum (df.getCol sc) mask ≤ ((optRun lin st df budget sc cc).1.getCol sc).sum) := by
  cases lin with
  | raise m =>
    constructor
    · intro hb hpos
      rw [optRun_fst_raise m st df budget sc cc hne hcols,
        greedy_fallback_empty df budget sc cc hpos (le_of_eq hb) hce]
    · intro hc0 hs0 htot
      rw [optRun_fst_raise m st df budget sc cc hne hcols,
        greedy_fallback_sum_all df budget sc cc hc0 htot hce hse hsw hne]
      exact maskedSum_le_sum _ mask hs0
  | res x success =>
    cases success with
    | false =>
      constructor
      · intro hb hpos
        rw [optRun_fst_fail x st df budget sc cc hne hcols,
          greedy_fallback_empty df budget sc cc hpos (le_of_eq hb) hce]
      · intro hc0 hs0 htot
        rw [optRun_fst_fail x st df budget sc cc hne hcols,
          greedy_fallback_sum_all df budget sc cc hc0 htot hce hse hsw hne]
        exact maskedSum_le_sum _ mask hs0
    | true =>
      have hopt := hlin x rfl
      have hxlen : x.length = (df.getCol cc).length := hopt.1.1
      have hxbox := hopt.1.2.1
      have hxcost := hopt.1.2.2
      have hxr : x.length = df.rows.length := by rw [hxlen, getCol_length]
      have hslen : (df.getCol sc).length = (df.getCol cc).length := by
        rw [getCol_length, getCol_length]
      constructor
      · intro hb hpos
        subst hb
        have hx0 : ∀ v ∈ x, v = 0 := by
          apply zipWith_mul_eq_zero (df.getCol cc) x hxlen.symm hpos
            (fun v hv => (hxbox v hv).1)
          exact hxcost
        have hmask0 : ∀ bb ∈ thresholdMask x, bb = false := by
          intro bb hbb
          unfold thresholdMask at hbb
          obtain ⟨xi, hxi, rfl⟩ := List.mem_map.1 hbb
          rw [hx0 xi hxi]
          norm_num
        have hany : (thresholdMask x).any id = false := by
          rw [List.any_eq_false]
          intro bb hbb
          rw [hmask0 bb hbb]
          simp
        rw [optRun_fst_success x st df 0 sc cc hne hcols, hany]
        simp only [Bool.false_eq_true, if_false]
        apply selectRows_rows_nil
        intro bb hbb
        unfold greedySelection at hbb
        obtain ⟨i, hi, rfl⟩ := List.mem_map.1 hbb
        have hrun0 : greedyRun (df.getCol cc)
            (argsortDesc (greedySelEff (df.getCol cc) (df.getCol sc))) 0 = [] := by
          apply greedyRun_none
          · intro k hk
            have hklt := argsortDesc_mem.1 hk
            unfold greedySelEff at hklt
            rw [List.length_zipWith] at hklt
            have hk2 : k < (df.getCol cc).length := lt_of_lt_of_le hklt (min_le_right _ _)
            rw [List.getD_eq_getElem _ _ hk2]
            exact hpos _ (List.getElem_mem hk2)
          · exact le_refl 0
        rw [hrun0]
        simp
      · intro hc0 hs0 htot
        have hthreshold : ∀ (i : ℕ) (hilt : i < x.length), 0 < (df.getCol sc).getD i 0 →
            x.getD i 0 = 1 := by
          intro i hilt hspos
          exact lp_threshold_of_pos (df.getCol cc) (df.getCol sc) budget x hopt hc0 htot
            hslen i hilt hspos
        by_cases hany : (thresholdMask x).any id = true
        · rw [optRun_fst_success x st df budget sc cc hne hcols, hany]
          simp only [if_true]
          rw [selectRows_getCol_sum df x (thresholdMask x) sc hsw hxr
            (by unfold thresholdMask; rw [List.length_map]; exact hxr)]
          have hF2 : List.Forall₂ (fun v bb => 0 ≤ v ∧ (0 < v → bb = true))
              (df.getCol sc) (thresholdMask x) := by
            unfold thresholdMask
            rw [List.forall₂_map_right_iff, List.forall₂_iff_get]
            refine ⟨by rw [hslen, hxlen], ?_⟩
            intro i h1 h2
            refine ⟨hs0 _ (List.get_mem _ _ _), ?_⟩
            intro hposi
            have hgd : 0 < (df.getCol sc).getD i 0 := by
              rw [List.getD_eq_getElem _ _ h1]
              exact hposi
            have hx1 := hthreshold i h2 hgd
            rw [List.getD_eq_getElem _ _ h2] at hx1
            rw [show x.get ⟨i, h2⟩ = x[i] from rfl, hx1]
            norm_num
          rw [maskedSum_forall₂ _ _ hF2]
          exact maskedSum_le_posSum _ mask
        · have hany' : (thresholdMask x).any id = false := by
            simpa using hany
          have hsz : ∀ s ∈ df.getCol sc, s = 0 := by
            intro s hs
            by_contra hne0
            have hspos : 0 < s := lt_of_le_of_ne (hs0 s hs) (Ne.symm hne0)
            obtain ⟨i, hilt, heq⟩ := List.mem_iff_getElem.1 hs
            have hix : i < x.length := by rw [hxr, ← getCol_length df sc]; exact hilt
            have hx1 : x.getD i 0 = 1 := by
              apply hthreshold i hix
              rw [List.getD_eq_getElem _ _ hilt, heq]
              exact hspos
            have hcon : (thresholdMask x).any id = true := by
              rw [List.any_eq_true]
              refine ⟨decide ((1 : ℚ)/2 < x.getD i 0), ?_, ?_⟩
              · unfold thresholdMask
                apply List.mem_map.2
                refine ⟨x.getD i 0, ?_, rfl⟩
                rw [List.getD_eq_getElem _ _ hix]
                exact List.getElem_mem hix
              · rw [hx1]
                norm_num
            rw [hany'] at hcon
            cases hcon
          have hsum0 : (df.getCol sc).sum = 0 := List.sum_eq_zero hsz
          rw [optRun_fst_success x st df budget sc cc hne hcols, hany']
          simp only [Bool.false_eq_true, if_false]
          rw [selectRows_getCol_sum df x
            (greedySelection (df.getCol cc) (df.getCol sc) budget) sc hsw hxr
            (by unfold greedySelection
                simp only [List.length_map, List.length_range]
                exact (getCol_length df cc))]
          have h1 : maskedSum (df.getCol sc) mask ≤ (df.getCol sc).sum :=
            maskedSum_le_sum _ mask hs0
          have h2 : 0 ≤ maskedSum (df.getCol sc)
              (greedySelection (df.getCol cc) (df.getCol sc) budget) :=
            maskedSum_nonneg _ _ hs0
          rw [hsum0] at h1
          linarith

/-- Frame with a single zero-cost record of positive score. -/
def c5df : NumFrame := ⟨[compositeCol, costColDefault], [[(compositeCol, 10), (costColDefault, 0)]]⟩

/-- C5 (counterexample): at budget 0, a zero-cost record of score 10 is
selected — the LP optimum is x = [1] (the record consumes no budget), so
the threshold keeps it; the greedy fallback admits it as well (cost 0 ≤
remaining 0).  The claim's "budget = 0 yields an empty selection" fails. -/
theorem C5_counterexample :
    lpOptimal [0] [10] 0 [1] ∧
    (optRun (.res [1] true) none c5df 0 compositeCol costColDefault).1.rows ≠ [] ∧
    (optRun (.raise ("e")) none c5df 0 compositeCol costColDefault).1.rows ≠ [] := by
  refine ⟨⟨⟨rfl, ?_, by norm_num [dotL]⟩, ?_⟩, ?_, ?_⟩
  · intro xi hxi
    simp only [List.mem_singleton] at hxi
    subst hxi
    norm_num
  · intro y hy
    obtain ⟨hlen, hbound, _⟩ := hy
    obtain ⟨a, rfl⟩ := List.length_eq_one.1 hlen
    have ha := hbound a (List.mem_singleton_self a)
    norm_num [dotL]
    linarith [ha.2]
  · unfold optRun optimize_projects
    norm_num [c5df, thresholdMask, selectRows]
  · unfold optRun optimize_projects
    norm_num [c5df, greedy_fallback, NumFrame.getCol, addNum, rowGetN, fallbackEff,
      List.insertionSort, List.orderedInsert, greedyAdmit, colNe1, colNe2, colNe3, colNe4,
      colNe5, colNe6, colNe7]

/-- Two-record-free frame (one record, cost 2, score 3) for the C5 witness. -/
def c5wdf : NumFrame := ⟨[compositeCol, costColDefault], [[(compositeCol, 3), (costColDefault, 2)]]⟩

theorem C5_budget_extremes_witness :
    (optRun (.raise ("e")) none c5wdf 0 compositeCol costColDefault).1.rows = [] ∧
    maskedSum (c5wdf.getCol compositeCol) [true]
      ≤ ((optRun (.raise ("e")) none c5wdf 10 compositeCol
          costColDefault).1.getCol compositeCol).sum :=
  ⟨(C5_budget_extremes (.raise ("e")) none c5wdf 0 compositeCol costColDefault []
      (by decide) (by decide) (by decide) (by decide) (by decide)
      (by intro x h; cases h)).1 rfl (by decide),
   (C5_budget_extremes (.raise ("e")) none c5wdf 10 compositeCol costColDefault [true]
      (by decide) (by decide) (by decide) (by decide) (by decide)
      (by intro x h; cases h)).2 (by decide) (by decide)
      (by norm_num [NumFrame.getCol, rowGetN, c5wdf, colNe1, colNe7])⟩

end GreenImpact
